import Mathlib

/-!
A shallow embedding of `exporter.py` (the promock Prometheus mock exporter).

Modelling conventions:
* Python `float` values are modelled as exact rationals (`ℚ`).
* Python dictionaries (which preserve insertion order and have unique keys)
  are modelled as association lists with `alookup` / `aset` mirroring
  `d[k]` reads and `d[k] = v` writes (update-in-place or append).
* Python strings are Lean `String`s; all character-level work happens on
  `String.data` (`List Char`).  String comparison (used by `sorted`) is the
  code-point lexicographic order, implemented by `charsLt` below.
* `random.uniform(a, b)` is modelled as `a + (b - a) * u` where `u` is the
  next value of an oracle stream of unit-interval draws; `random.gauss(mu,
  sigma)` (only called with `sigma > 0`, where a normal deviate can take any
  real value) is modelled as an unconstrained oracle stream value.  Each
  random call consumes one index of the shared stream counter.
* `statistics.stdev` returns the square root of the sample variance, which
  is irrational in general; the model stores the *square* of the standard
  deviation (the sample variance) in the field `std_dev_sq`.  The program
  only ever tests `std_dev`'s truthiness/positivity (equivalent to that of
  its square) and passes it to `random.gauss` as a scale (absorbed by the
  oracle), so every observable behaviour is preserved.
* File I/O: a directory listing is a list of `(filename, content)` pairs
  where `content : Option String` is `none` when opening/reading the file
  raises an I/O error.
-/

namespace Promock

/-! ### Association lists (Python dicts) -/

def alookup {α : Type} : List (String × α) → String → Option α
  | [], _ => none
  | (k, v) :: rest, key => if k = key then some v else alookup rest key

def aset {α : Type} : List (String × α) → String → α → List (String × α)
  | [], key, v => [(key, v)]
  | (k, w) :: rest, key, v =>
    if k = key then (k, v) :: rest else (k, w) :: aset rest key v

/-! ### Code-point lexicographic string order (Python `<` on `str`,
used by `sorted`) -/

def charsLt : List Char → List Char → Bool
  | [], [] => false
  | [], _ :: _ => true
  | _ :: _, [] => false
  | a :: as, b :: bs =>
    if a = b then charsLt as bs else decide (a.toNat < b.toNat)

/-- Lexicographic order on `(label name, label value)` pairs: Python's
tuple comparison used by `sorted(labels.items())`. -/
def pairLe (p q : String × String) : Prop :=
  (if p.1.data = q.1.data then !charsLt q.2.data p.2.data
   else charsLt p.1.data q.1.data) = true

instance : DecidableRel pairLe := fun _ _ =>
  inferInstanceAs (Decidable (_ = true))

/-! ### Label keys (`MetricGenerator._labels_to_key` / `_key_to_labels`) -/

def sortPairs (l : List (String × String)) : List (String × String) :=
  List.insertionSort pairLe l

/-- `",".join(...)` at the character level. -/
def joinComma : List String → List Char
  | [] => []
  | [s] => s.data
  | s :: rest => s.data ++ ',' :: joinComma rest

/-- `MetricGenerator._labels_to_key`: `",".join(f"{k}={v}" for k, v in
sorted(labels.items()))`, with `""` for an empty label dict. -/
def labels_to_key (labels : List (String × String)) : String :=
  if labels = [] then ""
  else String.mk (joinComma ((sortPairs labels).map (fun p => p.1 ++ "=" ++ p.2)))

/-- Split a char list at every occurrence of `sep` (Python `str.split(sep)`;
always returns at least one piece). -/
def splitOnChar (sep : Char) : List Char → List (List Char)
  | [] => [[]]
  | c :: rest =>
    let r := splitOnChar sep rest
    if c = sep then [] :: r
    else match r with
      | [] => [[c]]
      | piece :: more => (c :: piece) :: more

/-- One item of `_key_to_labels`: if the item contains `"="`, split at the
first `"="` into a name/value pair entered into the labels dict. -/
def keyItemFold (acc : List (String × String)) (item : List Char) :
    List (String × String) :=
  match item.dropWhile (fun c => !(c = '=')) with
  | _ :: v =>
    aset acc (String.mk (item.takeWhile (fun c => !(c = '=')))) (String.mk v)
  | [] => acc

/-- `MetricGenerator._key_to_labels`: split the key on `","` and process
each item. -/
def key_to_labels (key : String) : List (String × String) :=
  if key = "" then []
  else (splitOnChar ',' key.data).foldl keyItemFold []

/-! ### Order lemmas for `charsLt` / `pairLe` -/

theorem char_toNat_inj {a b : Char} (h : a.toNat = b.toNat) : a = b := by
  have := Char.ofNat_toNat a
  rw [h, Char.ofNat_toNat b] at this
  exact this.symm

theorem charsLt_irrefl (l : List Char) : charsLt l l = false := by
  induction l with
  | nil => rfl
  | cons a as ih => simp [charsLt, ih]

theorem charsLt_asymm {a b : List Char} (h : charsLt a b = true) :
    charsLt b a = false := by
  induction a generalizing b with
  | nil =>
    cases b with
    | nil => simp [charsLt] at h
    | cons y ys => simp [charsLt]
  | cons x xs ih =>
    cases b with
    | nil => simp [charsLt] at h
    | cons y ys =>
      by_cases hxy : x = y
      · subst hxy
        simp only [charsLt, if_pos rfl] at h ⊢
        exact ih h
      · simp only [charsLt, if_neg hxy, decide_eq_true_eq] at h
        have hyx : ¬ y = x := fun e => hxy e.symm
        simp only [charsLt, if_neg hyx, decide_eq_false_iff_not]
        omega

theorem charsLt_total {a b : List Char} (h1 : charsLt a b = false)
    (h2 : charsLt b a = false) : a = b := by
  induction a generalizing b with
  | nil =>
    cases b with
    | nil => rfl
    | cons y ys => simp [charsLt] at h1
  | cons x xs ih =>
    cases b with
    | nil => simp [charsLt] at h2
    | cons y ys =>
      by_cases hxy : x = y
      · subst hxy
        simp only [charsLt, if_pos rfl] at h1 h2
        rw [ih h1 h2]
      · have hyx : ¬ y = x := fun e => hxy e.symm
        simp only [charsLt, if_neg hxy, if_neg hyx, decide_eq_false_iff_not] at h1 h2
        exact absurd (char_toNat_inj (by omega)) hxy

theorem charsLt_trans {a b c : List Char} (h1 : charsLt a b = true)
    (h2 : charsLt b c = true) : charsLt a c = true := by
  induction a generalizing b c with
  | nil =>
    cases c with
    | nil =>
      cases b with
      | nil => simp [charsLt] at h1
      | cons y ys => simp [charsLt] at h2
    | cons z zs => simp [charsLt]
  | cons x xs ih =>
    cases b with
    | nil => simp [charsLt] at h1
    | cons y ys =>
      cases c with
      | nil => simp [charsLt] at h2
      | cons z zs =>
        by_cases hxy : x = y
        · subst hxy
          simp only [charsLt, if_pos rfl] at h1
          by_cases hyz : x = z
          · subst hyz
            simp only [charsLt, if_pos rfl] at h2 ⊢
            exact ih h1 h2
          · simp only [charsLt, if_neg hyz] at h2 ⊢
            exact h2
        · simp only [charsLt, if_neg hxy, decide_eq_true_eq] at h1
          by_cases hyz : y = z
          · subst hyz
            simp only [charsLt, if_neg hxy, decide_eq_true_eq]
            exact h1
          · simp only [charsLt, if_neg hyz, decide_eq_true_eq] at h2
            have hxz : ¬ x = z := by
              intro e; subst e
              omega
            simp only [charsLt, if_neg hxz, decide_eq_true_eq]
            omega

/-- `≤`-transitivity expressed through the strict order: from `¬(b < a)` and
`¬(c < b)` conclude `¬(c < a)`. -/
theorem charsLe_trans {a b c : List Char} (h1 : charsLt b a = false)
    (h2 : charsLt c b = false) : charsLt c a = false := by
  rcases Bool.eq_false_or_eq_true (charsLt c a) with hca | hca
  · rcases Bool.eq_false_or_eq_true (charsLt b c) with hbc | hbc
    · rw [charsLt_trans hbc hca] at h1
      simp at h1
    · have := charsLt_total h2 hbc
      subst this
      rw [hca] at h1
      simp at h1
  · exact hca

instance : IsTotal (String × String) pairLe := by
  constructor
  intro p q
  unfold pairLe
  by_cases h : p.1.data = q.1.data
  · rw [if_pos h, if_pos h.symm]
    rcases Bool.eq_false_or_eq_true (charsLt q.2.data p.2.data) with hv | hv
    · right; simp [charsLt_asymm hv]
    · left; simp [hv]
  · have h' : ¬ q.1.data = p.1.data := fun e => h e.symm
    rw [if_neg h, if_neg h']
    rcases Bool.eq_false_or_eq_true (charsLt p.1.data q.1.data) with hv | hv
    · left; exact hv
    · right
      rcases Bool.eq_false_or_eq_true (charsLt q.1.data p.1.data) with hw | hw
      · exact hw
      · exact absurd (charsLt_total hv hw) h

instance : IsTrans (String × String) pairLe := by
  constructor
  intro p q r hpq hqr
  unfold pairLe at *
  by_cases h1 : p.1.data = q.1.data
  · by_cases h2 : q.1.data = r.1.data
    · rw [if_pos h1] at hpq
      rw [if_pos h2] at hqr
      rw [if_pos (h1.trans h2)]
      simp only [Bool.not_eq_true'] at hpq hqr ⊢
      exact charsLe_trans hpq hqr
    · rw [if_neg h2] at hqr
      have h3 : ¬ p.1.data = r.1.data := fun e => h2 (h1 ▸ e)
      rw [if_neg h3, h1]
      exact hqr
  · by_cases h2 : q.1.data = r.1.data
    · rw [if_neg h1] at hpq
      have h3 : ¬ p.1.data = r.1.data := fun e => h1 (h2 ▸ e)
      rw [if_neg h3, ← h2]
      exact hpq
    · rw [if_neg h1] at hpq
      rw [if_neg h2] at hqr
      have h3 : ¬ p.1.data = r.1.data := by
        intro e
        have := charsLt_trans hpq hqr
        rw [e] at this
        rw [charsLt_irrefl] at this
        exact Bool.false_ne_true this
      rw [if_neg h3]
      exact charsLt_trans hpq hqr

instance : IsAntisymm (String × String) pairLe := by
  constructor
  intro p q hpq hqp
  unfold pairLe at hpq hqp
  by_cases h : p.1.data = q.1.data
  · rw [if_pos h] at hpq
    rw [if_pos h.symm] at hqp
    simp only [Bool.not_eq_true'] at hpq hqp
    have hv := charsLt_total hqp hpq
    have e1 : p.1 = q.1 := String.ext h
    have e2 : p.2 = q.2 := String.ext hv
    exact Prod.ext e1 e2
  · have h' : ¬ q.1.data = p.1.data := fun e => h e.symm
    rw [if_neg h] at hpq
    rw [if_neg h'] at hqp
    rw [charsLt_asymm hpq] at hqp
    exact absurd hqp (by simp)

/-- **C6.**  Label-key canonicalization is order-independent: two label sets
with identical name→value pairs (modelled: lists that are permutations of
each other) produce the same key string. -/
theorem labels_to_key_order_independent (l₁ l₂ : List (String × String))
    (h : l₁.Perm l₂) : labels_to_key l₁ = labels_to_key l₂ := by
  unfold labels_to_key
  by_cases h1 : l₁ = []
  · subst h1
    rw [if_pos rfl, if_pos (h.nil_eq).symm]
  · have h2 : l₂ ≠ [] := by
      intro e; subst e
      exact h1 h.symm.nil_eq.symm
    rw [if_neg h1, if_neg h2]
    have hsort : sortPairs l₁ = sortPairs l₂ := by
      exact List.eq_of_perm_of_sorted
        (((List.perm_insertionSort pairLe l₁).trans h).trans
          (List.perm_insertionSort pairLe l₂).symm)
        (List.sorted_insertionSort pairLe l₁)
        (List.sorted_insertionSort pairLe l₂)
    rw [hsort]

/-- Witness for C6 at a concrete input. -/
theorem labels_to_key_order_independent_witness :
    labels_to_key [("a", "1"), ("b", "2")] = labels_to_key [("b", "2"), ("a", "1")] :=
  labels_to_key_order_independent _ _ (by decide)

/-! ### Character classes of the sample-line regex (ASCII, as in the
Python `re` patterns) -/

def isNameStart (c : Char) : Bool := c.isAlpha || c = '_' || c = ':'

def isNameChar (c : Char) : Bool := c.isAlphanum || c = '_' || c = ':'

def isLabelStart (c : Char) : Bool := c.isAlpha || c = '_'

def isLabelChar (c : Char) : Bool := c.isAlphanum || c = '_'

/-! ### Numeric literals

The value group `([-+]?[0-9]*\.?[0-9]+(?:[eE][-+]?[0-9]+)?)` followed by
`(?: (\d+))?$`.  Since the characters a number match can consume never
include a space, and whatever follows the value must be the end of the
line or a space, regex backtracking inside the number cannot change
whether the whole line matches; maximal munch is therefore faithful.
`float(...)` of the matched text is modelled as its exact rational value. -/

def digitsToNat (ds : List Char) : ℕ :=
  ds.foldl (fun acc c => 10 * acc + (c.toNat - 48)) 0

/-- Longest match of the value regex at the head of `cs`, with the exact
rational value of the literal and the unconsumed remainder.  The decimal
dot is consumed only when at least one digit follows it, and the exponent
only when `[eE][-+]?[0-9]+` matches in full, mirroring the backtracking
behaviour of the pattern. -/
def numberFrom (cs : List Char) : Option (ℚ × List Char) :=
  let sgn : Bool × List Char :=
    match cs with
    | '-' :: r => (true, r)
    | '+' :: r => (false, r)
    | _ => (false, cs)
  let cs1 := sgn.2
  let ip := cs1.takeWhile Char.isDigit
  let cs2 := cs1.dropWhile Char.isDigit
  let fr : List Char × List Char :=
    match cs2 with
    | '.' :: r =>
      let f := r.takeWhile Char.isDigit
      if f = [] then ([], cs2) else (f, r.dropWhile Char.isDigit)
    | _ => ([], cs2)
  let fp := fr.1
  let cs3 := fr.2
  if ip = [] ∧ fp = [] then none
  else
    let ex : ℤ × List Char :=
      match cs3 with
      | e :: r =>
        if e = 'e' ∨ e = 'E' then
          match r with
          | '+' :: r2 =>
            let ds := r2.takeWhile Char.isDigit
            if ds = [] then (0, cs3) else ((digitsToNat ds : ℤ), r2.dropWhile Char.isDigit)
          | '-' :: r2 =>
            let ds := r2.takeWhile Char.isDigit
            if ds = [] then (0, cs3) else (-(digitsToNat ds : ℤ), r2.dropWhile Char.isDigit)
          | _ =>
            let ds := r.takeWhile Char.isDigit
            if ds = [] then (0, cs3) else ((digitsToNat ds : ℤ), r.dropWhile Char.isDigit)
        else (0, cs3)
      | [] => (0, cs3)
    let mant : ℤ := if sgn.1 then -(digitsToNat (ip ++ fp) : ℤ) else (digitsToNat (ip ++ fp) : ℤ)
    some ((mant : ℚ) / ((10 : ℚ) ^ fp.length) * (10 : ℚ) ^ ex.1, ex.2)

/-- Match the line tail ` value(?: timestamp)?$`; the timestamp is
recognized and discarded. -/
def parseValueTs (cs : List Char) : Option ℚ :=
  match cs with
  | ' ' :: rest =>
    match numberFrom rest with
    | some (q, rem) =>
      match rem with
      | [] => some q
      | ' ' :: ds => if ds ≠ [] ∧ ds.all Char.isDigit then some q else none
      | _ => none
    | none => none
  | _ => none

/-- The lazy label group `{(.*?)}` of the sample-line regex: the engine
tries each closing brace from left to right and keeps the first for which
the rest of the line matches ` value(?: timestamp)?$`. -/
def tryBraces (acc : List Char) : List Char → Option (List Char × ℚ)
  | [] => none
  | c :: rest =>
    if c = '}' then
      match parseValueTs rest with
      | some q => some (acc.reverse, q)
      | none => tryBraces ('}' :: acc) rest
    else tryBraces (c :: acc) rest

/-- One attempt of the label regex `([a-zA-Z_][a-zA-Z0-9_]*)="(.*?)"` at a
position whose first character is a label-start character: maximal-munch
identifier, then `="`, then the value up to the next `"`. -/
def tryLabelAt (cs : List Char) : Option (String × String × List Char) :=
  let id := cs.takeWhile isLabelChar
  match cs.dropWhile isLabelChar with
  | '=' :: '"' :: rest =>
    let v := rest.takeWhile (fun c => !(c = '"'))
    match rest.dropWhile (fun c => !(c = '"')) with
    | _ :: after => some (String.mk id, String.mk v, after)
    | [] => none
  | _ => none

theorem tryLabelAt_length {cs : List Char} {r : String × String × List Char}
    (h : tryLabelAt cs = some r) : r.2.2.length < cs.length := by
  unfold tryLabelAt at h
  have e1 : (cs.takeWhile isLabelChar).length + (cs.dropWhile isLabelChar).length
      = cs.length := by
    rw [← List.length_append, List.takeWhile_append_dropWhile]
  split at h
  case h_2 => exact absurd h (by simp)
  case h_1 rest heq =>
    have e2 : (rest.takeWhile (fun c => !(c = '"'))).length
        + (rest.dropWhile (fun c => !(c = '"'))).length = rest.length := by
      rw [← List.length_append, List.takeWhile_append_dropWhile]
    split at h
    case h_2 => exact absurd h (by simp)
    case h_1 q after heq2 =>
      cases h
      rw [heq] at e1
      rw [heq2] at e2
      simp only [List.length_cons] at e1 e2
      simp only []
      omega

/-- Worker for `parseLabelsRaw`, structurally recursive on a fuel bound:
every step consumes at least one character (`tryLabelAt_length`), so any
fuel of at least the content's length computes the full scan. -/
def parseLabelsGo : ℕ → List Char → List (String × String)
  | 0, _ => []
  | _ + 1, [] => []
  | fuel + 1, c :: rest =>
    if isLabelStart c then
      match tryLabelAt (c :: rest) with
      | some r => (r.1, r.2.1) :: parseLabelsGo fuel r.2.2
      | none => parseLabelsGo fuel rest
    else parseLabelsGo fuel rest

/-- `re.finditer` of the label regex over the brace-block content: scan
left to right; after a match continue right after it, after a failed
attempt advance one character. -/
def parseLabelsRaw (cs : List Char) : List (String × String) :=
  parseLabelsGo cs.length cs

/-- The labels dict built from the matches (a later duplicate label name
overwrites the earlier one, as Python dict assignment does). -/
def labelsOf (content : List Char) : List (String × String) :=
  (parseLabelsRaw content).foldl (fun acc p => aset acc p.1 p.2) []

/-- The sample-line match of `PrometheusFileParser.parse`:
`^name(?:\x7b...\x7d)? value(?: timestamp)?$` with the groups above.  The
metric name is a maximal munch (name characters can never satisfy the
following `{` or space, so the engine never gives characters back). -/
def parseSampleLine (line : List Char) : Option (String × List (String × String) × ℚ) :=
  match line with
  | [] => none
  | c :: rest =>
    if isNameStart c then
      let nm := (c :: rest).takeWhile isNameChar
      match (c :: rest).dropWhile isNameChar with
      | '{' :: rest2 =>
        match tryBraces [] rest2 with
        | some (content, q) => some (String.mk nm, labelsOf content, q)
        | none => none
      | rem =>
        match parseValueTs rem with
        | some q => some (String.mk nm, [], q)
        | none => none
    else none

/-! ### Data model -/

/-- `MetricSample`: one sample value with its label set. -/
structure MetricSample where
  value : ℚ
  labels : List (String × String)
deriving DecidableEq

/-- `MetricDefinition`: a metric with metadata, samples and derived
statistics.  `std_dev_sq` holds the square of the Python `std_dev` (the
sample variance): `statistics.stdev` is a square root and irrational in
general, and the program only tests the sign of `std_dev` or feeds it to
`random.gauss` as a scale, both captured exactly by the square. -/
structure MetricDefinition where
  name : String
  metric_type : String
  help_text : String
  samples : List MetricSample
  min_value : Option ℚ := none
  max_value : Option ℚ := none
  mean_value : Option ℚ := none
  std_dev_sq : Option ℚ := none
  is_counter : Bool := false
deriving DecidableEq

/-- Python `min(values)` over a non-empty list (left fold; the `[]` case is
unreachable in the program). -/
def pyMinL : List ℚ → ℚ
  | [] => 0
  | v :: r => r.foldl min v

/-- Python `max(values)` over a non-empty list. -/
def pyMaxL : List ℚ → ℚ
  | [] => 0
  | v :: r => r.foldl max v

/-- `statistics.mean`. -/
def pyMean (vs : List ℚ) : ℚ := vs.sum / vs.length

/-- The square of `statistics.stdev`: the sample variance
`Σ (x - mean)² / (n - 1)`. -/
def sampleVarQ (vs : List ℚ) : ℚ :=
  (vs.map (fun x => (x - pyMean vs) ^ 2)).sum / ((vs.length : ℚ) - 1)

/-- Python `str.lower()` (ASCII). -/
def pyLower (s : String) : String := String.mk (s.data.map Char.toLower)

/-- `MetricDefinition.__post_init__`: recompute the statistics from the
current samples (when non-empty) and re-derive `is_counter` from the
declared type. -/
def post_init (m : MetricDefinition) : MetricDefinition :=
  let m1 :=
    if m.samples = [] then m
    else
      let values := m.samples.map MetricSample.value
      { m with
        min_value := some (pyMinL values)
        max_value := some (pyMaxL values)
        mean_value := some (pyMean values)
        std_dev_sq := some (if 1 < values.length then sampleVarQ values else 0) }
  { m1 with is_counter := pyLower m1.metric_type = "counter" }

/-! ### `PrometheusFileParser` -/

/-- Python `str.strip()`. -/
def pyStrip (cs : List Char) : List Char :=
  ((cs.dropWhile Char.isWhitespace).reverse.dropWhile Char.isWhitespace).reverse

def splitLines (cs : List Char) : List (List Char) := splitOnChar '\n' cs

def startsWithChars : List Char → List Char → Bool
  | [], _ => true
  | _ :: _, [] => false
  | p :: ps, c :: cs => p = c && startsWithChars ps cs

/-- Python `s.split(' ', 1)` in the case where it yields exactly two
parts (i.e. `s` contains a space). -/
def splitFirstSpace (cs : List Char) : Option (List Char × List Char) :=
  let a := cs.takeWhile (fun c => !(c = ' '))
  match cs.dropWhile (fun c => !(c = ' ')) with
  | _ :: b => some (a, b)
  | [] => none

/-- Dataclass construction `MetricDefinition(name=…, metric_type=…,
help_text=…, samples=[])` (which runs `__post_init__`). -/
def mkDef (name metric_type help_text : String) : MetricDefinition :=
  post_init { name, metric_type, help_text, samples := [] }

/-- `if name not in self.metrics: self.metrics[name] = MetricDefinition(
name, metric_type='', help_text='', samples=[])`. -/
def ensureEntry (acc : List (String × MetricDefinition)) (name : String) :
    List (String × MetricDefinition) :=
  match alookup acc name with
  | none => acc ++ [(name, mkDef name "" "")]
  | some _ => acc

/-- `self.metrics[name].samples.append(MetricSample(value=value,
labels=labels))`. -/
def appendSample (acc : List (String × MetricDefinition)) (name : String)
    (s : MetricSample) : List (String × MetricDefinition) :=
  match alookup acc name with
  | some m => aset acc name { m with samples := m.samples ++ [s] }
  | none => acc

/-- The parser's line dispatch, applied to the stripped line. -/
def parseLineCore (acc : List (String × MetricDefinition)) (line : List Char) :
    List (String × MetricDefinition) :=
  if line = [] || startsWithChars "#".data line then
    if startsWithChars "# HELP ".data line then
      match splitFirstSpace (line.drop 7) with
      | some (n, h) =>
        match alookup acc (String.mk n) with
        | none => acc ++ [(String.mk n, mkDef (String.mk n) "" (String.mk h))]
        | some m => aset acc (String.mk n) { m with help_text := String.mk h }
      | none => acc
    else if startsWithChars "# TYPE ".data line then
      match splitFirstSpace (line.drop 7) with
      | some (n, t) =>
        match alookup acc (String.mk n) with
        | none => acc ++ [(String.mk n, mkDef (String.mk n) (String.mk t) "")]
        | some m => aset acc (String.mk n) { m with metric_type := String.mk t }
      | none => acc
    else acc
  else
    match parseSampleLine line with
    | some (name, labels, value) =>
      appendSample (ensureEntry acc name) name ⟨value, labels⟩
    | none => acc

/-- One iteration of the parser's line loop (`line = line.strip()` first). -/
def parseLine (acc : List (String × MetricDefinition)) (raw : List Char) :
    List (String × MetricDefinition) :=
  parseLineCore acc (pyStrip raw)

/-- `PrometheusFileParser.parse` on the full text content of one file:
strip, split into lines, process each line, then re-run `__post_init__`
on every metric to compute the statistics. -/
def parseFile (text : String) : List (String × MetricDefinition) :=
  ((splitLines (pyStrip text.data)).foldl parseLine []).map
    (fun p => (p.1, post_init p.2))

/-! ### `MetricGenerator` state and randomness -/

/-- Oracle streams modelling the `random` module (see the header). -/
structure Rng where
  unit : ℕ → ℚ
  gauss : ℕ → ℚ

/-- The unit-draw stream stays in `[0, 1]` (true of `random.random()`). -/
def Rng.Good (r : Rng) : Prop := ∀ n, 0 ≤ r.unit n ∧ r.unit n ≤ 1

/-- `random.uniform(a, b) = a + (b - a) * random.random()`, consuming
draw index `ix`. -/
def uniform (rng : Rng) (ix : ℕ) (a b : ℚ) : ℚ := a + (b - a) * rng.unit ix

abbrev Catalog := List (String × MetricDefinition)

abbrev CState := List (String × List (String × ℚ))

/-- The mutable state of a `MetricGenerator`. -/
structure GenState where
  metrics : Catalog
  counter_state : CState
  last_scan_time : ℚ
deriving DecidableEq

/-- `self.counter_state[name][key]` when both levels exist. -/
def cLookup (cs : CState) (name key : String) : Option ℚ :=
  (alookup cs name).bind (fun sub => alookup sub key)

def endsWithChars (suffix cs : List Char) : Bool :=
  startsWithChars suffix.reverse cs.reverse

/-! ### `MetricGenerator.scan_directory` -/

/-- Merge one parsed metric into the scan's accumulator (the body of the
per-file merge loop): extend the samples of an existing entry in place
(its metadata and statistics are left untouched), otherwise insert the
parsed definition. -/
def mergeOne (acc : Catalog) (nm : String × MetricDefinition) : Catalog :=
  match alookup acc nm.1 with
  | some old => aset acc nm.1 { old with samples := old.samples ++ nm.2.samples }
  | none => acc ++ [nm]

def mergeFile (acc : Catalog) (fm : Catalog) : Catalog := fm.foldl mergeOne acc

/-- The file loop of `scan_directory`: parse every `.prom` file (in listing
order) and merge; `none` models the `except` branch being reached because
reading some file raised an I/O error (the whole loop runs inside one
`try`, so a single failure discards the partially built catalog). -/
def buildCatalogAux : List (String × Option String) → Catalog → Option Catalog
  | [], acc => some acc
  | (fname, content) :: rest, acc =>
    if endsWithChars ".prom".data fname.data then
      match content with
      | some text => buildCatalogAux rest (mergeFile acc (parseFile text))
      | none => none
    else buildCatalogAux rest acc

def buildCatalog (dir : List (String × Option String)) : Option Catalog :=
  buildCatalogAux dir []

/-- Seeding of one counter sample's label key (the innermost loop of
`scan_directory`): only keys without an entry in the per-name dict get a
fresh `random.uniform(min_value, max_value)` start value. -/
def seedSample (metric : MetricDefinition) (rng : Rng)
    (p : List (String × ℚ) × ℕ) (s : MetricSample) : List (String × ℚ) × ℕ :=
  match alookup p.1 (labels_to_key s.labels) with
  | some _ => p
  | none =>
    match metric.min_value, metric.max_value with
    | some lo, some hi =>
      (aset p.1 (labels_to_key s.labels) (uniform rng p.2 lo hi), p.2 + 1)
    | _, _ => p

/-- Counter-state initialization for one catalog metric: only a
counter-typed metric whose *name* is absent from the store gets a (possibly
empty) fresh per-name dict, filled with one seeded entry per distinct
label key of its samples. -/
def seedMetric (rng : Rng) (p : CState × ℕ) (nm : String × MetricDefinition) :
    CState × ℕ :=
  if nm.2.is_counter then
    match alookup p.1 nm.1 with
    | some _ => p
    | none =>
      (aset p.1 nm.1 (nm.2.samples.foldl (seedSample nm.2 rng) ([], p.2)).1,
       (nm.2.samples.foldl (seedSample nm.2 rng) ([], p.2)).2)
  else p

def seedCounters (cat : Catalog) (cs : CState) (rng : Rng) (ix : ℕ) :
    CState × ℕ :=
  cat.foldl (seedMetric rng) (cs, ix)

/-- `MetricGenerator.scan_directory`: throttled by `scan_interval = 60`;
on success the catalog is wholesale-replaced and counter state seeded; on
an I/O failure only `last_scan_time` changes. -/
def scan_directory (g : GenState) (dir : List (String × Option String))
    (rng : Rng) (now : ℚ) (ix : ℕ) : GenState × ℕ :=
  if now - g.last_scan_time < 60 then (g, ix)
  else
    match buildCatalog dir with
    | none => ({ g with last_scan_time := now }, ix)
    | some cat =>
      let r := seedCounters cat g.counter_state rng ix
      ({ metrics := cat, counter_state := r.1, last_scan_time := now }, r.2)

/-! ### `MetricGenerator.generate_metrics` -/

/-- One line appended to `output` by `generate_metrics`. -/
inductive OutLine where
  | help (name text : String)
  | type (name t : String)
  | sample (name : String) (labels : List (String × String)) (value : ℚ)
  | noMetrics
deriving DecidableEq

/-- `metric.std_dev and metric.std_dev > 0` (`None` and `0` are falsy),
expressed on the stored square. -/
def stdPos (m : MetricDefinition) : Bool :=
  match m.std_dev_sq with
  | some v => decide (0 < v)
  | none => false

/-- `label_groups` accumulation: append the value to the group of the key,
creating the group at the end on first occurrence. -/
def addToGroup : List (String × List ℚ) → String → ℚ → List (String × List ℚ)
  | [], k, v => [(k, [v])]
  | (k', vs) :: rest, k, v =>
    if k' = k then (k', vs ++ [v]) :: rest else (k', vs) :: addToGroup rest k v

def groupSamples (samples : List MetricSample) : List (String × List ℚ) :=
  samples.foldl (fun acc s => addToGroup acc (labels_to_key s.labels) s.value) []

/-- The counter increment: `abs(random.gauss(0, std_dev))` when the
standard deviation is known and positive, else `random.uniform(0.1, 1.0)`.
`random.gauss` results are oracle values (`rng.gauss ix`); the `(0,
std_dev)` arguments shape the distribution but not its support, which is
all of ℝ. -/
def counterInc (m : MetricDefinition) (rng : Rng) (ix : ℕ) : ℚ :=
  if stdPos m then |rng.gauss ix| else uniform rng ix (1 / 10) 1

/-- The gauge value: `random.gauss(mean_value, std_dev)` (an oracle value)
clamped into `[min, max]` when the standard deviation is positive and the
mean known, else `random.uniform(min, max)`. -/
def gaugeVal (m : MetricDefinition) (rng : Rng) (ix : ℕ) (lo hi : ℚ) : ℚ :=
  if stdPos m && m.mean_value.isSome then
    max (min (rng.gauss ix) hi) lo
  else uniform rng ix lo hi

/-- The per-label-key body of the generation loop (the group's values list
is never read by the body). -/
def processGroup (name : String) (m : MetricDefinition) (cs : CState)
    (rng : Rng) (ix : ℕ) (key : String) : List OutLine × CState × ℕ :=
  if m.is_counter then
    match alookup cs name with
    | some sub =>
      match alookup sub key with
      | some current =>
        ([OutLine.sample name (key_to_labels key) (current + counterInc m rng ix)],
         aset cs name (aset sub key (current + counterInc m rng ix)), ix + 1)
      | none => ([], cs, ix)
    | none => ([], cs, ix)
  else
    match m.min_value, m.max_value with
    | some lo, some hi =>
      ([OutLine.sample name (key_to_labels key) (gaugeVal m rng ix lo hi)],
       cs, ix + 1)
    | _, _ => ([], cs, ix)

def groupsFold (name : String) (m : MetricDefinition) (rng : Rng) :
    List String → CState → ℕ → List OutLine × CState × ℕ
  | [], cs, ix => ([], cs, ix)
  | k :: rest, cs, ix =>
    let r1 := processGroup name m cs rng ix k
    let r2 := groupsFold name m rng rest r1.2.1 r1.2.2
    (r1.1 ++ r2.1, r2.2)

/-- The per-metric body of `generate_metrics`' main loop: metadata lines
(appended before the label grouping), then one generated value per
label-key group. -/
def processMetric (rng : Rng) (cs : CState) (ix : ℕ)
    (nm : String × MetricDefinition) : List OutLine × CState × ℕ :=
  let meta :=
    (if nm.2.help_text ≠ "" then [OutLine.help nm.1 nm.2.help_text] else []) ++
    (if nm.2.metric_type ≠ "" then [OutLine.type nm.1 nm.2.metric_type] else [])
  let r := groupsFold nm.1 nm.2 rng ((groupSamples nm.2.samples).map Prod.fst) cs ix
  (meta ++ r.1, r.2)

def renderFold (rng : Rng) : Catalog → CState → ℕ → List OutLine × CState × ℕ
  | [], cs, ix => ([], cs, ix)
  | nm :: rest, cs, ix =>
    let r1 := processMetric rng cs ix nm
    let r2 := renderFold rng rest r1.2.1 r1.2.2
    (r1.1 ++ r2.1, r2.2)

/-- `sorted(self.metrics.items())`: tuple comparison starts with the metric
name, and names are unique dict keys, so the sort is by name. -/
def nameLe (a b : String × MetricDefinition) : Prop :=
  charsLt b.1.data a.1.data = false

instance : DecidableRel nameLe := fun _ _ =>
  inferInstanceAs (Decidable (_ = false))

def sortCatalog (cat : Catalog) : Catalog := List.insertionSort nameLe cat

/-- `MetricGenerator.generate_metrics`: scan (throttled), then render every
metric of the catalog in name order, one fresh value per label-key group.
The returned text is modelled as the list of appended lines. -/
def generate_metrics (g : GenState) (dir : List (String × Option String))
    (rng : Rng) (now : ℚ) (ix : ℕ) : List OutLine × GenState × ℕ :=
  let s := scan_directory g dir rng now ix
  let g1 := s.1
  if g1.metrics = [] then ([OutLine.noMetrics], g1, s.2)
  else
    let r := renderFold rng (sortCatalog g1.metrics) g1.counter_state s.2
    (r.1, { g1 with counter_state := r.2.1 }, r.2.2)

/-! ### Derived descriptions of the merged catalog (used to state
properties of `scan_directory`) -/

/-- The definition parsed for `name` from the first `.prom` file that
contains it. -/
def firstDef : List (String × Option String) → String → Option MetricDefinition
  | [], _ => none
  | (fname, content) :: rest, name =>
    if endsWithChars ".prom".data fname.data then
      match content with
      | some text =>
        match alookup (parseFile text) name with
        | some m => some m
        | none => firstDef rest name
      | none => firstDef rest name
    else firstDef rest name

/-- Concatenation over all `.prom` files of the samples parsed for `name`. -/
def samplesFor : List (String × Option String) → String → List MetricSample
  | [], _ => []
  | (fname, content) :: rest, name =>
    (if endsWithChars ".prom".data fname.data then
      match content with
      | some text =>
        match alookup (parseFile text) name with
        | some m => m.samples
        | none => []
      | none => []
    else []) ++ samplesFor rest name

/-! ### Lemmas: association lists -/

theorem alookup_aset {α : Type} (l : List (String × α)) (k : String) (v : α)
    (k' : String) :
    alookup (aset l k v) k' = if k = k' then some v else alookup l k' := by
  induction l with
  | nil =>
    simp only [aset, alookup]
  | cons a rest ih =>
    obtain ⟨ak, av⟩ := a
    by_cases h1 : ak = k
    · subst h1
      simp only [aset, if_pos rfl, alookup]
      by_cases h2 : ak = k'
      · simp [h2]
      · simp [h2]
    · simp only [aset, if_neg h1, alookup]
      by_cases h2 : ak = k'
      · have h3 : ¬ k = k' := fun e => h1 (h2.trans e.symm)
        simp [h2, h3]
      · simp [h2, ih]

theorem alookup_append {α : Type} (l₁ l₂ : List (String × α)) (k : String) :
    alookup (l₁ ++ l₂) k =
      match alookup l₁ k with
      | some v => some v
      | none => alookup l₂ k := by
  induction l₁ with
  | nil => simp [alookup]
  | cons a rest ih =>
    obtain ⟨ak, av⟩ := a
    by_cases h : ak = k
    · simp [alookup, h]
    · simp [alookup, h, ih]

theorem alookup_none_iff {α : Type} (l : List (String × α)) (k : String) :
    alookup l k = none ↔ k ∉ l.map Prod.fst := by
  induction l with
  | nil => simp [alookup]
  | cons a rest ih =>
    obtain ⟨ak, av⟩ := a
    by_cases h : ak = k
    · simp [alookup, h]
    · simp only [alookup, if_neg h, List.map_cons, List.mem_cons]
      rw [ih]
      constructor
      · intro hk hor
        rcases hor with e | hm
        · exact h e.symm
        · exact hk hm
      · intro hk hm
        exact hk (Or.inr hm)

theorem aset_keys_of_mem {α : Type} {l : List (String × α)} {k : String} (v : α)
    (h : alookup l k ≠ none) :
    (aset l k v).map Prod.fst = l.map Prod.fst := by
  induction l with
  | nil => simp [alookup] at h
  | cons a rest ih =>
    obtain ⟨ak, av⟩ := a
    by_cases h1 : ak = k
    · simp [aset, h1]
    · simp only [alookup, if_neg h1] at h
      simp [aset, h1, ih h]

theorem aset_keys_of_new {α : Type} {l : List (String × α)} {k : String} (v : α)
    (h : alookup l k = none) :
    (aset l k v).map Prod.fst = l.map Prod.fst ++ [k] := by
  induction l with
  | nil => simp [aset]
  | cons a rest ih =>
    obtain ⟨ak, av⟩ := a
    by_cases h1 : ak = k
    · simp [alookup, h1] at h
    · simp only [alookup, if_neg h1] at h
      simp [aset, h1, ih h]

theorem aset_nodup {α : Type} {l : List (String × α)} (k : String) (v : α)
    (h : (l.map Prod.fst).Nodup) : ((aset l k v).map Prod.fst).Nodup := by
  rcases h2 : alookup l k with _ | w
  · rw [aset_keys_of_new v h2]
    have h3 := (alookup_none_iff l k).mp h2
    simp only [List.nodup_append, List.nodup_cons]
    exact ⟨h, by simp, by simpa using h3⟩
  · rw [aset_keys_of_mem v (by simp [h2])]
    exact h

theorem alookup_perm {α : Type} {l₁ l₂ : List (String × α)}
    (h : l₁.Perm l₂) (hnd : (l₁.map Prod.fst).Nodup) (k : String) :
    alookup l₁ k = alookup l₂ k := by
  induction h with
  | nil => rfl
  | cons x h ih =>
    obtain ⟨xk, xv⟩ := x
    simp only [List.map_cons, List.nodup_cons] at hnd
    by_cases h1 : xk = k
    · simp [alookup, h1]
    · simp [alookup, h1, ih hnd.2]
  | swap x y l =>
    obtain ⟨xk, xv⟩ := x
    obtain ⟨yk, yv⟩ := y
    simp only [List.map_cons, List.nodup_cons, List.mem_cons] at hnd
    have hxy : ¬ yk = xk := fun e => hnd.1 (Or.inl e)
    by_cases h1 : xk = k
    · have h2 : ¬ yk = k := fun e => hxy (e.trans h1.symm)
      simp [alookup, h1, h2]
    · by_cases h2 : yk = k
      · simp [alookup, h1, h2]
      · simp [alookup, h1, h2]
  | trans h1 h2 ih1 ih2 =>
    have hnd2 := (h1.map Prod.fst).nodup hnd
    exact (ih1 hnd).trans (ih2 hnd2)

/-! ### Lemmas: counter-state seeding -/

theorem uniform_mem {rng : Rng} (hg : rng.Good) (ix : ℕ) {lo hi : ℚ}
    (hle : lo ≤ hi) : lo ≤ uniform rng ix lo hi ∧ uniform rng ix lo hi ≤ hi := by
  obtain ⟨h0, h1⟩ := hg ix
  constructor
  · have : 0 ≤ (hi - lo) * rng.unit ix :=
      mul_nonneg (sub_nonneg.mpr hle) h0
    simp only [uniform]
    linarith
  · have : (hi - lo) * rng.unit ix ≤ (hi - lo) * 1 :=
      mul_le_mul_of_nonneg_left h1 (sub_nonneg.mpr hle)
    simp only [uniform]
    linarith

theorem seedSample_preserves (metric : MetricDefinition) (rng : Rng)
    (p : List (String × ℚ) × ℕ) (s : MetricSample) {k : String} {w : ℚ}
    (h : alookup p.1 k = some w) :
    alookup (seedSample metric rng p s).1 k = some w := by
  rcases h1 : alookup p.1 (labels_to_key s.labels) with _ | val
  · rcases h2 : metric.min_value with _ | lo
    · simp only [seedSample, h1, h2]
      exact h
    · rcases h3 : metric.max_value with _ | hi
      · simp only [seedSample, h1, h2, h3]
        exact h
      · simp only [seedSample, h1, h2, h3]
        rw [alookup_aset]
        split
        case isTrue he =>
          rw [he, h] at h1
          cases h1
        case isFalse => exact h
  · simp only [seedSample, h1]
    exact h

theorem seedSample_fold_preserves (metric : MetricDefinition) (rng : Rng)
    (samples : List MetricSample) (p : List (String × ℚ) × ℕ) {k : String} {w : ℚ}
    (h : alookup p.1 k = some w) :
    alookup (samples.foldl (seedSample metric rng) p).1 k = some w := by
  induction samples generalizing p with
  | nil => exact h
  | cons s rest ih =>
    exact ih _ (seedSample_preserves metric rng p s h)

theorem seedSample_fold_spec {metric : MetricDefinition} {rng : Rng} {lo hi : ℚ}
    (hlo : metric.min_value = some lo) (hhi : metric.max_value = some hi)
    (hle : lo ≤ hi) (hg : rng.Good) (samples : List MetricSample)
    (p : List (String × ℚ) × ℕ)
    (h0 : ∀ k w, alookup p.1 k = some w → lo ≤ w ∧ w ≤ hi) :
    (∀ k w, alookup (samples.foldl (seedSample metric rng) p).1 k = some w →
      lo ≤ w ∧ w ≤ hi) ∧
    (∀ s ∈ samples, ∃ w,
      alookup (samples.foldl (seedSample metric rng) p).1
        (labels_to_key s.labels) = some w) := by
  induction samples generalizing p with
  | nil => exact ⟨h0, by simp⟩
  | cons s rest ih =>
    have hstep : ∀ k w, alookup (seedSample metric rng p s).1 k = some w →
        lo ≤ w ∧ w ≤ hi := by
      intro k w hw
      rcases h1 : alookup p.1 (labels_to_key s.labels) with _ | val
      · simp only [seedSample, h1, hlo, hhi] at hw
        rw [alookup_aset] at hw
        split at hw
        · cases hw
          exact uniform_mem hg _ hle
        · exact h0 _ _ hw
      · simp only [seedSample, h1] at hw
        exact h0 _ _ hw
    have hmem : ∃ w, alookup (seedSample metric rng p s).1
        (labels_to_key s.labels) = some w := by
      rcases h1 : alookup p.1 (labels_to_key s.labels) with _ | val
      · simp only [seedSample, h1, hlo, hhi]
        rw [alookup_aset, if_pos rfl]
        exact ⟨_, rfl⟩
      · simp only [seedSample, h1]
        exact ⟨val, rfl⟩
    obtain ⟨ih1, ih2⟩ := ih (seedSample metric rng p s) hstep
    refine ⟨ih1, ?_⟩
    intro t ht
    rcases List.mem_cons.mp ht with he | hm
    · subst he
      obtain ⟨w, hw⟩ := hmem
      exact ⟨w, seedSample_fold_preserves metric rng rest _ hw⟩
    · exact ih2 t hm

theorem seedMetric_preserves (rng : Rng) (p : CState × ℕ)
    (nm : String × MetricDefinition) {n : String} {sub : List (String × ℚ)}
    (h : alookup p.1 n = some sub) :
    alookup (seedMetric rng p nm).1 n = some sub := by
  rcases hc : nm.2.is_counter with _ | _
  · simp only [seedMetric, hc, Bool.false_eq_true, if_false]
    exact h
  · rcases h1 : alookup p.1 nm.1 with _ | sub'
    · simp only [seedMetric, hc, if_true, h1]
      rw [alookup_aset]
      split
      case isTrue he =>
        rw [he, h] at h1
        cases h1
      case isFalse => exact h
    · simp only [seedMetric, hc, if_true, h1]
      exact h

theorem seedMetric_other (rng : Rng) (p : CState × ℕ)
    (nm : String × MetricDefinition) {n : String} (h : ¬ nm.1 = n) :
    alookup (seedMetric rng p nm).1 n = alookup p.1 n := by
  rcases hc : nm.2.is_counter with _ | _
  · simp only [seedMetric, hc, Bool.false_eq_true, if_false]
  · rcases h1 : alookup p.1 nm.1 with _ | sub'
    · simp only [seedMetric, hc, if_true, h1]
      rw [alookup_aset, if_neg h]
    · simp only [seedMetric, hc, if_true, h1]

theorem seedCounters_fold_preserves (rng : Rng) (cat : Catalog)
    (p : CState × ℕ) {n : String} {sub : List (String × ℚ)}
    (h : alookup p.1 n = some sub) :
    alookup (cat.foldl (seedMetric rng) p).1 n = some sub := by
  induction cat generalizing p with
  | nil => exact h
  | cons nm rest ih =>
    exact ih _ (seedMetric_preserves rng p nm h)

theorem seedCounters_seeds {rng : Rng} (hg : rng.Good) (cat : Catalog)
    (p : CState × ℕ) {n : String} {m : MetricDefinition} {lo hi : ℚ}
    (hm : alookup cat n = some m) (hc : m.is_counter = true)
    (habs : alookup p.1 n = none) (hlo : m.min_value = some lo)
    (hhi : m.max_value = some hi) (hle : lo ≤ hi) :
    ∀ s ∈ m.samples, ∃ w,
      cLookup (cat.foldl (seedMetric rng) p).1 n (labels_to_key s.labels) = some w ∧
      lo ≤ w ∧ w ≤ hi := by
  induction cat generalizing p with
  | nil => cases hm
  | cons nm rest ih =>
    by_cases he : nm.1 = n
    · have hmm : nm.2 = m := by
        rw [alookup] at hm
        rw [if_pos he] at hm
        cases hm
        rfl
      intro s hs
      have hseed : seedMetric rng p nm =
          (aset p.1 nm.1 (nm.2.samples.foldl (seedSample nm.2 rng) ([], p.2)).1,
           (nm.2.samples.foldl (seedSample nm.2 rng) ([], p.2)).2) := by
        have hc2 : nm.2.is_counter = true := by rw [hmm]; exact hc
        have habs2 : alookup p.1 nm.1 = none := by rw [he]; exact habs
        simp only [seedMetric, hc2, if_true, habs2]
      obtain ⟨hbound, hmem⟩ := @seedSample_fold_spec nm.2 rng _ _
        (hmm ▸ hlo) (hmm ▸ hhi) hle hg nm.2.samples ([], p.2)
        (by intro k w hw; cases hw)
      obtain ⟨w, hw⟩ := hmem s (by rw [hmm]; exact hs)
      refine ⟨w, ?_, hbound _ _ hw⟩
      have hsub : alookup (seedMetric rng p nm).1 n =
          some (nm.2.samples.foldl (seedSample nm.2 rng) ([], p.2)).1 := by
        rw [hseed]
        simp only
        rw [alookup_aset, if_pos he]
      have hfin := seedCounters_fold_preserves rng rest (seedMetric rng p nm) hsub
      unfold cLookup
      rw [List.foldl_cons, hfin]
      exact hw
    · have hm' : alookup rest n = some m := by
        rw [alookup, if_neg he] at hm
        exact hm
      have habs' : alookup (seedMetric rng p nm).1 n = none := by
        rw [seedMetric_other rng p nm he]
        exact habs
      intro s hs
      rw [List.foldl_cons]
      exact ih _ hm' habs' s hs

/-! ### Lemmas: `scan_directory` -/

theorem buildCatalogAux_none {dir : List (String × Option String)} {f : String}
    (hf : (f, (none : Option String)) ∈ dir)
    (hprom : endsWithChars ".prom".data f.data = true) (acc : Catalog) :
    buildCatalogAux dir acc = none := by
  induction dir generalizing acc with
  | nil => cases hf
  | cons fc rest ih =>
    obtain ⟨fn, c⟩ := fc
    rcases List.mem_cons.mp hf with he | hm
    · rw [Prod.mk.injEq] at he
      obtain ⟨rfl, rfl⟩ := he
      simp only [buildCatalogAux, hprom, if_true]
    · rcases hp : endsWithChars ".prom".data fn.data with _ | _
      · simp only [buildCatalogAux, hp, Bool.false_eq_true, if_false]
        exact ih hm _
      · rcases c with _ | t
        · simp only [buildCatalogAux, hp, if_true]
        · simp only [buildCatalogAux, hp, if_true]
          exact ih hm _

/-- **C5 (amended).**  An I/O error reading any `.prom` file aborts the
whole refresh: no new catalog is installed and the counter state is left
unchanged — the previously loaded catalog remains in use (the per-file
skip described by the spec does not happen, because the single `try`
encloses the whole file loop). -/
theorem scan_aborts_on_file_error (g : GenState)
    (dir : List (String × Option String)) (rng : Rng) (now : ℚ) (ix : ℕ)
    (f : String) (hf : (f, (none : Option String)) ∈ dir)
    (hprom : endsWithChars ".prom".data f.data = true) :
    (scan_directory g dir rng now ix).1.metrics = g.metrics ∧
    (scan_directory g dir rng now ix).1.counter_state = g.counter_state := by
  unfold scan_directory
  split
  · exact ⟨rfl, rfl⟩
  · have hb : buildCatalog dir = none := buildCatalogAux_none hf hprom []
    rw [hb]
    exact ⟨rfl, rfl⟩

/-- Witness for the amended C5 at a concrete input. -/
theorem scan_aborts_on_file_error_witness :
    (scan_directory ⟨[("old", ⟨"old", "", "", [], none, none, none, none, false⟩)],
        [("old", [("", 3)])], 0⟩
      [("a.prom", some "m 1"), ("b.prom", none)] ⟨fun _ => 1/2, fun _ => 0⟩
      100 0).1.metrics =
      [("old", ⟨"old", "", "", [], none, none, none, none, false⟩)] ∧
    (scan_directory ⟨[("old", ⟨"old", "", "", [], none, none, none, none, false⟩)],
        [("old", [("", 3)])], 0⟩
      [("a.prom", some "m 1"), ("b.prom", none)] ⟨fun _ => 1/2, fun _ => 0⟩
      100 0).1.counter_state = [("old", [("", 3)])] :=
  scan_aborts_on_file_error _ _ _ _ _ "b.prom" (by decide) (by decide)

/-- **C3 (amended).**  After a refresh that successfully rebuilds the
catalog: (i) every per-name counter state that existed before the refresh
is kept exactly (in particular, a label key of an already-tracked counter
name that had no entry is *not* seeded); (ii) for every counter-typed
metric whose *name* had no Counter State Store entry at all, every label
key of its samples is seeded with a pseudo-random value within the
metric's stored `[min_value, max_value]`. -/
theorem scan_seeding (g : GenState) (dir : List (String × Option String))
    (rng : Rng) (now : ℚ) (ix : ℕ) (cat : Catalog) (hg : rng.Good)
    (hthr : ¬ now - g.last_scan_time < 60)
    (hbuild : buildCatalog dir = some cat) :
    (∀ n sub, alookup g.counter_state n = some sub →
      alookup (scan_directory g dir rng now ix).1.counter_state n = some sub) ∧
    (∀ n m lo hi, alookup cat n = some m → m.is_counter = true →
      alookup g.counter_state n = none →
      m.min_value = some lo → m.max_value = some hi → lo ≤ hi →
      ∀ s ∈ m.samples, ∃ w,
        cLookup (scan_directory g dir rng now ix).1.counter_state n
          (labels_to_key s.labels) = some w ∧ lo ≤ w ∧ w ≤ hi) := by
  unfold scan_directory
  rw [if_neg hthr]
  simp only [hbuild]
  constructor
  · intro n sub h
    exact seedCounters_fold_preserves rng cat (g.counter_state, ix) h
  · intro n m lo hi hm hc habs hlo hhi hle s hs
    exact seedCounters_seeds hg cat (g.counter_state, ix) hm hc habs hlo hhi hle s hs

/-! ### Lemmas: the parser's catalog invariants -/

theorem alookup_mem {α : Type} {l : List (String × α)} {k : String} {v : α}
    (h : alookup l k = some v) : (k, v) ∈ l := by
  induction l with
  | nil => cases h
  | cons a rest ih =>
    obtain ⟨ak, av⟩ := a
    by_cases h1 : ak = k
    · rw [alookup, if_pos h1] at h
      cases h
      subst h1
      exact List.mem_cons_self _ _
    · rw [alookup, if_neg h1] at h
      exact List.mem_cons_of_mem _ (ih h)

theorem mem_aset {α : Type} {l : List (String × α)} {k : String} {v : α}
    {nm : String × α} (h : nm ∈ aset l k v) : nm ∈ l ∨ nm = (k, v) := by
  induction l with
  | nil =>
    simp only [aset] at h
    rcases List.mem_singleton.mp h with rfl
    exact Or.inr rfl
  | cons a rest ih =>
    obtain ⟨ak, av⟩ := a
    by_cases h1 : ak = k
    · rw [aset, if_pos h1] at h
      rcases List.mem_cons.mp h with he | hm
      · exact Or.inr (h1 ▸ he)
      · exact Or.inl (List.mem_cons_of_mem _ hm)
    · rw [aset, if_neg h1] at h
      rcases List.mem_cons.mp h with he | hm
      · exact Or.inl (he ▸ List.mem_cons_self _ _)
      · rcases ih hm with h2 | h2
        · exact Or.inl (List.mem_cons_of_mem _ h2)
        · exact Or.inr h2

theorem append_fresh_nodup {α : Type} {l : List (String × α)} {k : String}
    (v : α) (hfresh : alookup l k = none) (h : (l.map Prod.fst).Nodup) :
    ((l ++ [(k, v)]).map Prod.fst).Nodup := by
  rw [List.map_append]
  rw [List.nodup_append]
  refine ⟨h, by simp, ?_⟩
  intro x hx
  simp only [List.map_cons, List.map_nil, List.mem_singleton]
  intro he
  subst he
  exact (alookup_none_iff l x).mp hfresh hx

/-- Every metric entry in the line-loop accumulator has all statistics
fields `None` (they are only filled in by the final `__post_init__`
pass). -/
def StatsNone (m : MetricDefinition) : Prop :=
  m.min_value = none ∧ m.max_value = none ∧ m.mean_value = none ∧
    m.std_dev_sq = none

/-- The statistics of a metric definition agree with its own sample
collection (the parser's post-condition). -/
def StatsOf (m : MetricDefinition) : Prop :=
  (m.samples = [] → StatsNone m) ∧
  (m.samples ≠ [] →
    m.min_value = some (pyMinL (m.samples.map MetricSample.value)) ∧
    m.max_value = some (pyMaxL (m.samples.map MetricSample.value)) ∧
    m.mean_value = some (pyMean (m.samples.map MetricSample.value)) ∧
    m.std_dev_sq = some (if 1 < (m.samples.map MetricSample.value).length
      then sampleVarQ (m.samples.map MetricSample.value) else 0))

theorem post_init_stats {m : MetricDefinition} (h : StatsNone m) :
    StatsOf (post_init m) := by
  by_cases hs : m.samples = []
  · constructor
    · intro _
      simp only [post_init, if_pos hs]
      exact h
    · intro hne
      have : (post_init m).samples = m.samples := by
        simp only [post_init, if_pos hs]
      rw [this] at hne
      exact absurd hs hne
  · constructor
    · intro he
      have : (post_init m).samples = m.samples := by
        simp only [post_init, if_neg hs]
      rw [this] at he
      exact absurd he hs
    · intro _
      simp [post_init, hs]

theorem post_init_fields (m : MetricDefinition) :
    (post_init m).samples = m.samples ∧
    (post_init m).metric_type = m.metric_type ∧
    (post_init m).help_text = m.help_text ∧
    (post_init m).name = m.name := by
  by_cases hs : m.samples = []
  · simp [post_init, hs]
  · simp [post_init, hs]

theorem mkDef_statsnone (name t h : String) : StatsNone (mkDef name t h) := by
  simp [StatsNone, mkDef, post_init]

theorem ensureEntry_statsnone {acc : Catalog} {name : String}
    (h : ∀ nm ∈ acc, StatsNone nm.2) :
    ∀ nm ∈ ensureEntry acc name, StatsNone nm.2 := by
  intro nm hm
  unfold ensureEntry at hm
  split at hm
  · rcases List.mem_append.mp hm with h1 | h1
    · exact h nm h1
    · rcases List.mem_singleton.mp h1 with rfl
      exact mkDef_statsnone _ _ _
  · exact h nm hm

theorem appendSample_statsnone {acc : Catalog} {name : String}
    {s : MetricSample} (h : ∀ nm ∈ acc, StatsNone nm.2) :
    ∀ nm ∈ appendSample acc name s, StatsNone nm.2 := by
  intro nm hm
  unfold appendSample at hm
  split at hm
  case h_1 m hl =>
    rcases mem_aset hm with h1 | h1
    · exact h nm h1
    · have := h _ (alookup_mem hl)
      rcases h1 with rfl
      exact this
  case h_2 => exact h nm hm

theorem parseLine_statsnone {acc : Catalog} {raw : List Char}
    (h : ∀ nm ∈ acc, StatsNone nm.2) :
    ∀ nm ∈ parseLine acc raw, StatsNone nm.2 := by
  intro nm hm
  unfold parseLine parseLineCore at hm
  split at hm
  · split at hm
    · split at hm
      case h_1 n hlp heq =>
        split at hm
        case h_1 =>
          rcases List.mem_append.mp hm with h1 | h1
          · exact h nm h1
          · rcases List.mem_singleton.mp h1 with rfl
            exact mkDef_statsnone _ _ _
        case h_2 m hl =>
          rcases mem_aset hm with h1 | h1
          · exact h nm h1
          · have := h _ (alookup_mem hl)
            rcases h1 with rfl
            exact this
      case h_2 => exact h nm hm
    · split at hm
      · split at hm
        case h_1 n t heq =>
          split at hm
          case h_1 =>
            rcases List.mem_append.mp hm with h1 | h1
            · exact h nm h1
            · rcases List.mem_singleton.mp h1 with rfl
              exact mkDef_statsnone _ _ _
          case h_2 m hl =>
            rcases mem_aset hm with h1 | h1
            · exact h nm h1
            · have := h _ (alookup_mem hl)
              rcases h1 with rfl
              exact this
        case h_2 => exact h nm hm
      · exact h nm hm
  · split at hm
    case h_1 name labels value heq =>
      exact appendSample_statsnone (ensureEntry_statsnone h) nm hm
    case h_2 => exact h nm hm

theorem parseFile_stats (text : String) :
    ∀ nm ∈ parseFile text, StatsOf nm.2 := by
  have hfold : ∀ nm ∈ (splitLines (pyStrip text.data)).foldl parseLine [],
      StatsNone nm.2 := by
    generalize (splitLines (pyStrip text.data)) = lines
    have : ∀ (acc : Catalog), (∀ nm ∈ acc, StatsNone nm.2) →
        ∀ nm ∈ lines.foldl parseLine acc, StatsNone nm.2 := by
      induction lines with
      | nil => intro acc h nm hm; exact h nm hm
      | cons raw rest ih =>
        intro acc h nm hm
        exact ih _ (parseLine_statsnone h) nm hm
    exact this [] (by simp)
  intro nm hm
  unfold parseFile at hm
  rcases List.mem_map.mp hm with ⟨p, hp, rfl⟩
  exact post_init_stats (hfold p hp)

theorem ensureEntry_nodup {acc : Catalog} {name : String}
    (h : (acc.map Prod.fst).Nodup) :
    ((ensureEntry acc name).map Prod.fst).Nodup := by
  unfold ensureEntry
  split
  case h_1 hl => exact append_fresh_nodup _ hl h
  case h_2 => exact h

theorem appendSample_nodup {acc : Catalog} {name : String} {s : MetricSample}
    (h : (acc.map Prod.fst).Nodup) :
    ((appendSample acc name s).map Prod.fst).Nodup := by
  unfold appendSample
  split
  case h_1 m hl => exact aset_nodup _ _ h
  case h_2 => exact h

theorem parseLine_nodup {acc : Catalog} {raw : List Char}
    (h : (acc.map Prod.fst).Nodup) :
    ((parseLine acc raw).map Prod.fst).Nodup := by
  unfold parseLine parseLineCore
  split
  · split
    · split
      case h_1 =>
        split
        case h_1 hl => exact append_fresh_nodup _ hl h
        case h_2 => exact aset_nodup _ _ h
      case h_2 => exact h
    · split
      · split
        case h_1 =>
          split
          case h_1 hl => exact append_fresh_nodup _ hl h
          case h_2 => exact aset_nodup _ _ h
        case h_2 => exact h
      · exact h
  · split
    case h_1 name labels value heq =>
      exact appendSample_nodup (ensureEntry_nodup h)
    case h_2 => exact h

theorem parseFile_nodup (text : String) :
    ((parseFile text).map Prod.fst).Nodup := by
  have hfold : (((splitLines (pyStrip text.data)).foldl parseLine []).map
      Prod.fst).Nodup := by
    generalize (splitLines (pyStrip text.data)) = lines
    have : ∀ (acc : Catalog), (acc.map Prod.fst).Nodup →
        ((lines.foldl parseLine acc).map Prod.fst).Nodup := by
      induction lines with
      | nil => intro acc h; exact h
      | cons raw rest ih => intro acc h; exact ih _ (parseLine_nodup h)
    exact this [] (by simp)
  unfold parseFile
  have : (((splitLines (pyStrip text.data)).foldl parseLine []).map
      (fun p => (p.1, post_init p.2))).map Prod.fst =
      ((splitLines (pyStrip text.data)).foldl parseLine []).map Prod.fst := by
    rw [List.map_map]
    rfl
  rw [this]
  exact hfold

/-! ### Lemmas: the scan's merge across files -/

theorem alookup_mergeOne (acc : Catalog) (nm : String × MetricDefinition)
    (x : String) :
    alookup (mergeOne acc nm) x =
      if nm.1 = x then
        match alookup acc x with
        | some old => some { old with samples := old.samples ++ nm.2.samples }
        | none => some nm.2
      else alookup acc x := by
  unfold mergeOne
  rcases h : alookup acc nm.1 with _ | old
  · rw [alookup_append]
    by_cases he : nm.1 = x
    · subst he
      rw [h]
      simp [alookup]
    · rw [if_neg he]
      rcases h2 : alookup acc x with _ | v
      · simp [alookup, he]
      · simp
  · rw [alookup_aset]
    by_cases he : nm.1 = x
    · subst he
      simp [h]
    · simp [he]

theorem alookup_mergeFile (acc fm : Catalog) (x : String)
    (hnd : (fm.map Prod.fst).Nodup) :
    alookup (mergeFile acc fm) x =
      match alookup acc x, alookup fm x with
      | some m, some mf => some { m with samples := m.samples ++ mf.samples }
      | some m, none => some m
      | none, r => r := by
  induction fm generalizing acc with
  | nil =>
    simp only [mergeFile, List.foldl_nil, alookup]
    rcases alookup acc x with _ | m <;> rfl
  | cons nm rest ih =>
    simp only [List.map_cons, List.nodup_cons] at hnd
    have step : mergeFile acc (nm :: rest) = mergeFile (mergeOne acc nm) rest := by
      simp [mergeFile]
    rw [step, ih _ hnd.2]
    by_cases he : nm.1 = x
    · have hrest : alookup rest x = none := by
        rw [alookup_none_iff]
        intro hx
        exact hnd.1 (he ▸ hx)
      rw [alookup_mergeOne, if_pos he, hrest]
      have hfm : alookup (nm :: rest) x = some nm.2 := by
        rw [alookup, if_pos he]
      rw [hfm]
      rcases alookup acc x with _ | old <;> rfl
    · rw [alookup_mergeOne, if_neg he]
      have hfm : alookup (nm :: rest) x = alookup rest x := by
        rw [alookup, if_neg he]
      rw [hfm]

theorem buildCatalogAux_lookup (dir : List (String × Option String))
    (acc : Catalog) (cat : Catalog) (x : String)
    (h : buildCatalogAux dir acc = some cat) :
    alookup cat x =
      match alookup acc x with
      | some m => some { m with samples := m.samples ++ samplesFor dir x }
      | none => (firstDef dir x).map
          (fun m0 => { m0 with samples := samplesFor dir x }) := by
  induction dir generalizing acc with
  | nil =>
    cases h
    simp only [samplesFor, firstDef, Option.map_none]
    rcases alookup cat x with _ | m
    · rfl
    · simp
  | cons fc rest ih =>
    obtain ⟨fname, content⟩ := fc
    rcases hp : endsWithChars ".prom".data fname.data with _ | _
    · simp only [buildCatalogAux, hp, Bool.false_eq_true, if_false] at h
      simp only [samplesFor, firstDef, hp, Bool.false_eq_true, if_false,
        List.nil_append]
      exact ih _ h
    · rcases content with _ | text
      · simp only [buildCatalogAux, hp, if_true] at h
        cases h
      · simp only [buildCatalogAux, hp, if_true] at h
        have hstep := ih (mergeFile acc (parseFile text)) h
        rw [hstep]
        rw [alookup_mergeFile _ _ _ (parseFile_nodup text)]
        simp only [samplesFor, firstDef, hp, if_true]
        rcases hfm : alookup (parseFile text) x with _ | mf
        · rcases alookup acc x with _ | m
          · simp
          · simp
        · rcases alookup acc x with _ | m
          · simp [List.append_assoc]
          · simp [List.append_assoc]

theorem firstDef_stats {dir : List (String × Option String)} {x : String}
    {m0 : MetricDefinition} (hf : firstDef dir x = some m0) : StatsOf m0 := by
  induction dir with
  | nil => cases hf
  | cons fc rest ih =>
    obtain ⟨fname, content⟩ := fc
    rcases hp : endsWithChars ".prom".data fname.data with _ | _
    · simp only [firstDef, hp, Bool.false_eq_true, if_false] at hf
      exact ih hf
    · rcases content with _ | text
      · simp only [firstDef, hp, if_true] at hf
        exact ih hf
      · simp only [firstDef, hp, if_true] at hf
        rcases hfm : alookup (parseFile text) x with _ | mf
        · rw [hfm] at hf
          exact ih hf
        · rw [hfm] at hf
          cases hf
          exact parseFile_stats text _ (alookup_mem hfm)

/-- **C4 (amended).**  For every metric in the catalog produced by a
successful refresh, the merged sample collection is the concatenation of
its samples from all parsed files, but the stored statistics are those
computed by the per-file `__post_init__` of the *first* file containing
the metric: min/max/mean/variance of that first file's samples only (they
are not recomputed after later files' samples are appended). -/
theorem merged_stats_from_first_file (dir : List (String × Option String))
    (cat : Catalog) (name : String) (m : MetricDefinition)
    (hb : buildCatalog dir = some cat) (hm : alookup cat name = some m) :
    ∃ m0, firstDef dir name = some m0 ∧
      m.min_value = m0.min_value ∧ m.max_value = m0.max_value ∧
      m.mean_value = m0.mean_value ∧ m.std_dev_sq = m0.std_dev_sq ∧
      m.samples = samplesFor dir name ∧ StatsOf m0 := by
  have h := buildCatalogAux_lookup dir [] cat name hb
  rw [hm] at h
  rcases hf : firstDef dir name with _ | m0
  · rw [hf] at h
    cases h
  · rw [hf] at h
    injection h with h2
    subst h2
    exact ⟨m0, rfl, rfl, rfl, rfl, rfl, rfl, firstDef_stats hf⟩

/-- **C8 (amended).**  When the same metric name occurs in several source
files of one scan, the merged definition's help text and declared type are
those of the *first* file that introduced the name (within a single file,
a later `# HELP`/`# TYPE` line still overwrites an earlier one); the
sample collections of all files are concatenated. -/
theorem merged_metadata_from_first_file (dir : List (String × Option String))
    (cat : Catalog) (name : String) (m : MetricDefinition)
    (hb : buildCatalog dir = some cat) (hm : alookup cat name = some m) :
    ∃ m0, firstDef dir name = some m0 ∧
      m.help_text = m0.help_text ∧ m.metric_type = m0.metric_type ∧
      m.samples = samplesFor dir name := by
  have h := buildCatalogAux_lookup dir [] cat name hb
  rw [hm] at h
  rcases hf : firstDef dir name with _ | m0
  · rw [hf] at h
    cases h
  · rw [hf] at h
    injection h with h2
    subst h2
    exact ⟨m0, rfl, rfl, rfl, rfl⟩

/-! ### Lemmas: the generation loop -/

theorem counterInc_nonneg {rng : Rng} (hg : rng.Good) (m : MetricDefinition)
    (ix : ℕ) : 0 ≤ counterInc m rng ix := by
  unfold counterInc
  split
  · exact abs_nonneg _
  · obtain ⟨h0, _⟩ := hg ix
    unfold uniform
    have := mul_nonneg (by norm_num : (0 : ℚ) ≤ 1 - 1 / 10) h0
    linarith

theorem gaugeVal_mem {rng : Rng} (hg : rng.Good) (m : MetricDefinition)
    (ix : ℕ) {lo hi : ℚ} (hle : lo ≤ hi) :
    lo ≤ gaugeVal m rng ix lo hi ∧ gaugeVal m rng ix lo hi ≤ hi := by
  unfold gaugeVal
  split
  · exact ⟨le_max_right _ _, max_le (min_le_right _ _) hle⟩
  · exact uniform_mem hg ix hle

theorem gaugeVal_const (m : MetricDefinition) (rng : Rng) (ix : ℕ) (v : ℚ)
    (hstd : stdPos m = false) : gaugeVal m rng ix v v = v := by
  unfold gaugeVal
  rw [hstd]
  simp [uniform]

theorem processGroup_counter_nostate {m : MetricDefinition} {cs : CState}
    {name : String} (hc : m.is_counter = true) (h : alookup cs name = none)
    (rng : Rng) (ix : ℕ) (key : String) :
    processGroup name m cs rng ix key = ([], cs, ix) := by
  simp only [processGroup, hc, if_true, h]

theorem processGroup_counter_noentry {m : MetricDefinition} {cs : CState}
    {name key : String} {sub : List (String × ℚ)} (hc : m.is_counter = true)
    (hsub : alookup cs name = some sub) (hk : alookup sub key = none)
    (rng : Rng) (ix : ℕ) :
    processGroup name m cs rng ix key = ([], cs, ix) := by
  simp only [processGroup, hc, if_true, hsub, hk]

theorem processGroup_counter_entry {m : MetricDefinition} {cs : CState}
    {name key : String} {sub : List (String × ℚ)} {current : ℚ}
    (hc : m.is_counter = true) (hsub : alookup cs name = some sub)
    (hk : alookup sub key = some current) (rng : Rng) (ix : ℕ) :
    processGroup name m cs rng ix key =
      ([OutLine.sample name (key_to_labels key) (current + counterInc m rng ix)],
       aset cs name (aset sub key (current + counterInc m rng ix)), ix + 1) := by
  simp only [processGroup, hc, if_true, hsub, hk]

theorem processGroup_gauge {m : MetricDefinition} {lo hi : ℚ}
    (hc : m.is_counter = false) (hlo : m.min_value = some lo)
    (hhi : m.max_value = some hi) (name : String) (cs : CState) (rng : Rng)
    (ix : ℕ) (key : String) :
    processGroup name m cs rng ix key =
      ([OutLine.sample name (key_to_labels key) (gaugeVal m rng ix lo hi)],
       cs, ix + 1) := by
  simp only [processGroup, hc, Bool.false_eq_true, if_false, hlo, hhi]

theorem processGroup_cs_other {m : MetricDefinition} {name : String}
    (cs : CState) (rng : Rng) (ix : ℕ) (key : String) {n : String}
    (hn : ¬ name = n) :
    alookup (processGroup name m cs rng ix key).2.1 n = alookup cs n := by
  rcases hc : m.is_counter with _ | _
  · simp only [processGroup, hc, Bool.false_eq_true, if_false]
    split
    · rfl
    · rfl
  · simp only [processGroup, hc, if_true]
    rcases h1 : alookup cs name with _ | sub
    · simp only [h1]
    · simp only [h1]
      rcases h2 : alookup sub key with _ | cur
      · simp only [h2]
      · simp only [h2]
        rw [alookup_aset, if_neg hn]

theorem processGroup_cs_gauge {m : MetricDefinition} (hc : m.is_counter = false)
    (name : String) (cs : CState) (rng : Rng) (ix : ℕ) (key : String) :
    (processGroup name m cs rng ix key).2.1 = cs := by
  simp only [processGroup, hc, Bool.false_eq_true, if_false]
  split
  · rfl
  · rfl

theorem processGroup_lines_shape {m : MetricDefinition} {name : String}
    (cs : CState) (rng : Rng) (ix : ℕ) (key : String) :
    ∀ l ∈ (processGroup name m cs rng ix key).1,
      ∃ labels w, l = OutLine.sample name labels w := by
  intro l hl
  rcases hc : m.is_counter with _ | _
  · simp only [processGroup, hc, Bool.false_eq_true, if_false] at hl
    split at hl
    · rcases List.mem_singleton.mp hl with rfl
      exact ⟨_, _, rfl⟩
    · cases hl
  · simp only [processGroup, hc, if_true] at hl
    rcases h1 : alookup cs name with _ | sub
    · simp only [h1] at hl
      cases hl
    · simp only [h1] at hl
      rcases h2 : alookup sub key with _ | cur
      · simp only [h2] at hl
        cases hl
      · simp only [h2] at hl
        rcases List.mem_singleton.mp hl with rfl
        exact ⟨_, _, rfl⟩

theorem groupsFold_lines_shape (name : String) (m : MetricDefinition)
    (rng : Rng) (keys : List String) (cs : CState) (ix : ℕ) :
    ∀ l ∈ (groupsFold name m rng keys cs ix).1,
      ∃ labels w, l = OutLine.sample name labels w := by
  induction keys generalizing cs ix with
  | nil => simp [groupsFold]
  | cons k rest ih =>
    intro l hl
    simp only [groupsFold] at hl
    rcases List.mem_append.mp hl with h1 | h1
    · exact processGroup_lines_shape cs rng ix k l h1
    · exact ih _ _ l h1

theorem groupsFold_cs_other (name : String) (m : MetricDefinition) (rng : Rng)
    (keys : List String) (cs : CState) (ix : ℕ) {n : String} (hn : ¬ name = n) :
    alookup (groupsFold name m rng keys cs ix).2.1 n = alookup cs n := by
  induction keys generalizing cs ix with
  | nil => rfl
  | cons k rest ih =>
    simp only [groupsFold]
    rw [ih _ _, processGroup_cs_other cs rng ix k hn]

theorem groupsFold_counter_nostate {m : MetricDefinition} {cs : CState}
    {name : String} (hc : m.is_counter = true) (h : alookup cs name = none)
    (rng : Rng) (keys : List String) (ix : ℕ) :
    groupsFold name m rng keys cs ix = ([], cs, ix) := by
  induction keys generalizing ix with
  | nil => rfl
  | cons k rest ih =>
    simp only [groupsFold]
    rw [processGroup_counter_nostate hc h]
    simp only
    rw [ih]
    simp

theorem cLookup_aset_self {cs : CState} {name : String}
    {sub : List (String × ℚ)} (hsub : alookup cs name = some sub)
    (k0 : String) (w0 : ℚ) (k : String) :
    cLookup (aset cs name (aset sub k0 w0)) name k =
      if k0 = k then some w0 else cLookup cs name k := by
  unfold cLookup
  rw [alookup_aset, if_pos rfl, hsub]
  simp only [Option.some_bind]
  rw [alookup_aset]

/-- The per-metric generation loop for a counter metric: existing entries
of that metric only grow, untouched keys keep their values, and every
emitted line carries the value newly stored for its label key. -/
theorem groupsFold_counter_spec {m : MetricDefinition} {rng : Rng}
    (hc : m.is_counter = true) (hg : rng.Good) (name : String) :
    ∀ (keys : List String) (cs : CState) (ix : ℕ), keys.Nodup →
    (∀ k v, cLookup cs name k = some v →
      ∃ v', cLookup (groupsFold name m rng keys cs ix).2.1 name k = some v' ∧
        v ≤ v') ∧
    (∀ k, k ∉ keys →
      cLookup (groupsFold name m rng keys cs ix).2.1 name k =
        cLookup cs name k) ∧
    (∀ l ∈ (groupsFold name m rng keys cs ix).1, ∃ k w,
      l = OutLine.sample name (key_to_labels k) w ∧
      cLookup (groupsFold name m rng keys cs ix).2.1 name k = some w ∧
      (∀ v, cLookup cs name k = some v → v ≤ w)) := by
  intro keys
  induction keys with
  | nil =>
    intro cs ix _
    refine ⟨?_, ?_, ?_⟩
    · intro k v hv
      exact ⟨v, hv, le_refl v⟩
    · intro k _
      rfl
    · intro l hl
      cases hl
  | cons k0 rest ih =>
    intro cs ix hnd
    obtain ⟨hk0, hndr⟩ := List.nodup_cons.mp hnd
    rcases hsub : alookup cs name with _ | sub
    · have hpg := processGroup_counter_nostate hc hsub rng ix k0
      have hred : groupsFold name m rng (k0 :: rest) cs ix =
          ((processGroup name m cs rng ix k0).1 ++
            (groupsFold name m rng rest (processGroup name m cs rng ix k0).2.1
              (processGroup name m cs rng ix k0).2.2).1,
           (groupsFold name m rng rest (processGroup name m cs rng ix k0).2.1
              (processGroup name m cs rng ix k0).2.2).2) := rfl
      rw [hred, hpg]
      simp only [List.nil_append]
      obtain ⟨iha, ihb, ihc⟩ := ih cs ix hndr
      exact ⟨iha, fun k hk => ihb k (fun h => hk (List.mem_cons_of_mem _ h)),
        ihc⟩
    · rcases hcur : alookup sub k0 with _ | cur
      · have hpg := processGroup_counter_noentry hc hsub hcur rng ix
        have hred : groupsFold name m rng (k0 :: rest) cs ix =
            ((processGroup name m cs rng ix k0).1 ++
              (groupsFold name m rng rest (processGroup name m cs rng ix k0).2.1
                (processGroup name m cs rng ix k0).2.2).1,
             (groupsFold name m rng rest (processGroup name m cs rng ix k0).2.1
                (processGroup name m cs rng ix k0).2.2).2) := rfl
        rw [hred, hpg]
        simp only [List.nil_append]
        obtain ⟨iha, ihb, ihc⟩ := ih cs ix hndr
        exact ⟨iha, fun k hk => ihb k (fun h => hk (List.mem_cons_of_mem _ h)),
          ihc⟩
      · have hpg := processGroup_counter_entry hc hsub hcur rng ix
        have hred : groupsFold name m rng (k0 :: rest) cs ix =
            ((processGroup name m cs rng ix k0).1 ++
              (groupsFold name m rng rest (processGroup name m cs rng ix k0).2.1
                (processGroup name m cs rng ix k0).2.2).1,
             (groupsFold name m rng rest (processGroup name m cs rng ix k0).2.1
                (processGroup name m cs rng ix k0).2.2).2) := rfl
        rw [hred, hpg]
        simp only
        obtain ⟨iha, ihb, ihc⟩ :=
          ih (aset cs name (aset sub k0 (cur + counterInc m rng ix))) (ix + 1)
            hndr
        have f1 := cLookup_aset_self hsub k0 (cur + counterInc m rng ix)
        have fmono : ∀ k v, cLookup cs name k = some v →
            ∃ v', cLookup (aset cs name (aset sub k0 (cur + counterInc m rng ix)))
              name k = some v' ∧ v ≤ v' := by
          intro k v hv
          rw [f1 k]
          by_cases he : k0 = k
          · subst he
            have hveq : v = cur := by
              unfold cLookup at hv
              rw [hsub] at hv
              simp only [Option.some_bind] at hv
              rw [hcur] at hv
              cases hv
              rfl
            rw [if_pos rfl]
            exact ⟨cur + counterInc m rng ix, rfl,
              hveq ▸ le_add_of_nonneg_right (counterInc_nonneg hg m ix)⟩
          · rw [if_neg he]
            exact ⟨v, hv, le_refl v⟩
        refine ⟨?_, ?_, ?_⟩
        · intro k v hv
          obtain ⟨v1, hv1, hle1⟩ := fmono k v hv
          obtain ⟨v2, hv2, hle2⟩ := iha k v1 hv1
          exact ⟨v2, hv2, le_trans hle1 hle2⟩
        · intro k hk
          have hne : ¬ k0 = k := fun e => hk (e ▸ List.mem_cons_self _ _)
          rw [ihb k (fun h => hk (List.mem_cons_of_mem _ h)), f1 k, if_neg hne]
        · intro l hl
          rcases List.mem_append.mp hl with h1 | h1
          · rcases List.mem_singleton.mp h1 with rfl
            refine ⟨k0, cur + counterInc m rng ix, rfl, ?_, ?_⟩
            · rw [ihb k0 hk0, f1 k0, if_pos rfl]
            · intro v hv
              have hveq : v = cur := by
                unfold cLookup at hv
                rw [hsub] at hv
                simp only [Option.some_bind] at hv
                rw [hcur] at hv
                cases hv
                rfl
              exact hveq ▸ le_add_of_nonneg_right (counterInc_nonneg hg m ix)
          · obtain ⟨k, w, hleq, hfin, hmono⟩ := ihc l h1
            refine ⟨k, w, hleq, hfin, ?_⟩
            intro v hv
            obtain ⟨v1, hv1, hle1⟩ := fmono k v hv
            exact le_trans hle1 (hmono v1 hv1)

theorem addToGroup_keys (l : List (String × List ℚ)) (k : String) (v : ℚ) :
    (addToGroup l k v).map Prod.fst =
      if k ∈ l.map Prod.fst then l.map Prod.fst else l.map Prod.fst ++ [k] := by
  induction l with
  | nil => simp [addToGroup]
  | cons a rest ih =>
    obtain ⟨ak, avs⟩ := a
    by_cases h1 : ak = k
    · subst h1
      simp [addToGroup]
    · have h2 : ¬ k = ak := fun e => h1 e.symm
      simp only [addToGroup, if_neg h1, List.map_cons, ih, List.mem_cons]
      by_cases h3 : k ∈ rest.map Prod.fst
      · simp [h2, h3]
      · simp [h2, h3]

theorem addToGroup_nodup {l : List (String × List ℚ)} (k : String) (v : ℚ)
    (h : (l.map Prod.fst).Nodup) : ((addToGroup l k v).map Prod.fst).Nodup := by
  rw [addToGroup_keys]
  by_cases h1 : k ∈ l.map Prod.fst
  · rw [if_pos h1]
    exact h
  · rw [if_neg h1]
    simp only [List.nodup_append, List.nodup_cons]
    exact ⟨h, by simp, by simpa using h1⟩

theorem groupSamples_nodup (samples : List MetricSample) :
    ((groupSamples samples).map Prod.fst).Nodup := by
  have : ∀ (acc : List (String × List ℚ)), (acc.map Prod.fst).Nodup →
      ((samples.foldl
        (fun acc s => addToGroup acc (labels_to_key s.labels) s.value)
        acc).map Prod.fst).Nodup := by
    induction samples with
    | nil => intro acc h; exact h
    | cons s rest ih =>
      intro acc h
      exact ih _ (addToGroup_nodup _ _ h)
  exact this [] (by simp)

/-- The per-metric generation loop for a gauge with `lo ≤ hi`: the counter
state is untouched and every emitted value lies in `[lo, hi]`. -/
theorem groupsFold_gauge_bounded {m : MetricDefinition} {rng : Rng}
    (hc : m.is_counter = false) {lo hi : ℚ} (hlo : m.min_value = some lo)
    (hhi : m.max_value = some hi) (hle : lo ≤ hi) (hg : rng.Good)
    (name : String) (keys : List String) (cs : CState) (ix : ℕ) :
    (groupsFold name m rng keys cs ix).2.1 = cs ∧
    ∀ l ∈ (groupsFold name m rng keys cs ix).1, ∃ labels w,
      l = OutLine.sample name labels w ∧ lo ≤ w ∧ w ≤ hi := by
  induction keys generalizing cs ix with
  | nil => exact ⟨rfl, by simp [groupsFold]⟩
  | cons k rest ih =>
    have hpg := processGroup_gauge hc hlo hhi name cs rng ix k
    have hred : groupsFold name m rng (k :: rest) cs ix =
        ((processGroup name m cs rng ix k).1 ++
          (groupsFold name m rng rest (processGroup name m cs rng ix k).2.1
            (processGroup name m cs rng ix k).2.2).1,
         (groupsFold name m rng rest (processGroup name m cs rng ix k).2.1
            (processGroup name m cs rng ix k).2.2).2) := rfl
    rw [hred, hpg]
    simp only
    obtain ⟨ihc, ihl⟩ := ih cs (ix + 1)
    refine ⟨ihc, ?_⟩
    intro l hl
    rcases List.mem_append.mp hl with h1 | h1
    · rcases List.mem_singleton.mp h1 with rfl
      exact ⟨_, _, rfl, (gaugeVal_mem hg m ix hle).1, (gaugeVal_mem hg m ix hle).2⟩
    · exact ihl l h1

/-- The per-metric generation loop for a gauge whose observed range is the
single point `v` and whose standard deviation is not positive: every
emitted value is exactly `v`. -/
theorem groupsFold_gauge_const {m : MetricDefinition} {rng : Rng}
    (hc : m.is_counter = false) {v : ℚ} (hlo : m.min_value = some v)
    (hhi : m.max_value = some v) (hstd : stdPos m = false)
    (name : String) (keys : List String) (cs : CState) (ix : ℕ) :
    (groupsFold name m rng keys cs ix).2.1 = cs ∧
    ∀ l ∈ (groupsFold name m rng keys cs ix).1, ∃ labels,
      l = OutLine.sample name labels v := by
  induction keys generalizing cs ix with
  | nil => exact ⟨rfl, by simp [groupsFold]⟩
  | cons k rest ih =>
    have hpg := processGroup_gauge hc hlo hhi name cs rng ix k
    have hred : groupsFold name m rng (k :: rest) cs ix =
        ((processGroup name m cs rng ix k).1 ++
          (groupsFold name m rng rest (processGroup name m cs rng ix k).2.1
            (processGroup name m cs rng ix k).2.2).1,
         (groupsFold name m rng rest (processGroup name m cs rng ix k).2.1
            (processGroup name m cs rng ix k).2.2).2) := rfl
    rw [hred, hpg]
    simp only
    obtain ⟨ihc, ihl⟩ := ih cs (ix + 1)
    refine ⟨ihc, ?_⟩
    intro l hl
    rcases List.mem_append.mp hl with h1 | h1
    · rcases List.mem_singleton.mp h1 with rfl
      rw [gaugeVal_const m rng ix v hstd]
      exact ⟨_, rfl⟩
    · exact ihl l h1

/-! ### Lemmas: the per-metric body and the catalog loop -/

theorem processMetric_lines (rng : Rng) (cs : CState) (ix : ℕ)
    (nm : String × MetricDefinition) :
    (processMetric rng cs ix nm).1 =
      ((if nm.2.help_text ≠ "" then [OutLine.help nm.1 nm.2.help_text] else []) ++
       (if nm.2.metric_type ≠ "" then [OutLine.type nm.1 nm.2.metric_type] else [])) ++
      (groupsFold nm.1 nm.2 rng ((groupSamples nm.2.samples).map Prod.fst)
        cs ix).1 := rfl

theorem processMetric_cs (rng : Rng) (cs : CState) (ix : ℕ)
    (nm : String × MetricDefinition) :
    (processMetric rng cs ix nm).2 =
      (groupsFold nm.1 nm.2 rng ((groupSamples nm.2.samples).map Prod.fst)
        cs ix).2 := rfl

theorem processMetric_cs_other (rng : Rng) (cs : CState) (ix : ℕ)
    (nm : String × MetricDefinition) {n : String} (hn : ¬ nm.1 = n) :
    alookup (processMetric rng cs ix nm).2.1 n = alookup cs n := by
  rw [processMetric_cs]
  exact groupsFold_cs_other _ _ _ _ _ _ hn

theorem processMetric_line_members (rng : Rng) (cs : CState) (ix : ℕ)
    (nm : String × MetricDefinition) :
    ∀ l ∈ (processMetric rng cs ix nm).1,
      l = OutLine.help nm.1 nm.2.help_text ∨
      l = OutLine.type nm.1 nm.2.metric_type ∨
      ∃ labels w, l = OutLine.sample nm.1 labels w := by
  intro l hl
  rw [processMetric_lines] at hl
  rcases List.mem_append.mp hl with h1 | h1
  · rcases List.mem_append.mp h1 with h2 | h2
    · split at h2
      · rcases List.mem_singleton.mp h2 with rfl
        exact Or.inl rfl
      · cases h2
    · split at h2
      · rcases List.mem_singleton.mp h2 with rfl
        exact Or.inr (Or.inl rfl)
      · cases h2
  · exact Or.inr (Or.inr (groupsFold_lines_shape _ _ _ _ _ _ l h1))

theorem renderFold_cs_notin (rng : Rng) (ms : Catalog) (cs : CState) (ix : ℕ)
    {n : String} (hn : n ∉ ms.map Prod.fst) :
    alookup (renderFold rng ms cs ix).2.1 n = alookup cs n := by
  induction ms generalizing cs ix with
  | nil => rfl
  | cons nm rest ih =>
    simp only [List.map_cons, List.mem_cons] at hn
    have hred : renderFold rng (nm :: rest) cs ix =
        ((processMetric rng cs ix nm).1 ++
          (renderFold rng rest (processMetric rng cs ix nm).2.1
            (processMetric rng cs ix nm).2.2).1,
         (renderFold rng rest (processMetric rng cs ix nm).2.1
            (processMetric rng cs ix nm).2.2).2) := rfl
    rw [hred]
    simp only
    rw [ih _ _ (fun h => hn (Or.inr h))]
    exact processMetric_cs_other rng cs ix nm (fun e => hn (Or.inl e.symm))

theorem renderFold_line_members (rng : Rng) (ms : Catalog) (cs : CState)
    (ix : ℕ) :
    ∀ l ∈ (renderFold rng ms cs ix).1, ∃ nm, nm ∈ ms ∧
      (l = OutLine.help nm.1 nm.2.help_text ∨
       l = OutLine.type nm.1 nm.2.metric_type ∨
       ∃ labels w, l = OutLine.sample nm.1 labels w) := by
  induction ms generalizing cs ix with
  | nil => simp [renderFold]
  | cons nm rest ih =>
    intro l hl
    have hred : renderFold rng (nm :: rest) cs ix =
        ((processMetric rng cs ix nm).1 ++
          (renderFold rng rest (processMetric rng cs ix nm).2.1
            (processMetric rng cs ix nm).2.2).1,
         (renderFold rng rest (processMetric rng cs ix nm).2.1
            (processMetric rng cs ix nm).2.2).2) := rfl
    rw [hred] at hl
    simp only at hl
    rcases List.mem_append.mp hl with h1 | h1
    · exact ⟨nm, List.mem_cons_self _ _,
        processMetric_line_members rng cs ix nm l h1⟩
    · obtain ⟨nm', hmem, hshape⟩ := ih _ _ l h1
      exact ⟨nm', List.mem_cons_of_mem _ hmem, hshape⟩

theorem renderFold_counter_spec {rng : Rng} (hg : rng.Good) :
    ∀ (ms : Catalog) (name : String) (cs : CState) (ix : ℕ)
      (m : MetricDefinition),
    (ms.map Prod.fst).Nodup → alookup ms name = some m → m.is_counter = true →
    (∀ k v, cLookup cs name k = some v →
      ∃ v', cLookup (renderFold rng ms cs ix).2.1 name k = some v' ∧ v ≤ v') ∧
    (∀ labels w, OutLine.sample name labels w ∈ (renderFold rng ms cs ix).1 →
      ∃ k, labels = key_to_labels k ∧
        cLookup (renderFold rng ms cs ix).2.1 name k = some w ∧
        ∀ v, cLookup cs name k = some v → v ≤ w) := by
  intro ms
  induction ms with
  | nil =>
    intro name cs ix m _ hm
    cases hm
  | cons nm rest ih =>
    intro name cs ix m hnd hm hc
    have hnd' : (nm.1 :: rest.map Prod.fst).Nodup := by simpa using hnd
    obtain ⟨hhead, hndr⟩ := List.nodup_cons.mp hnd'
    have hred : renderFold rng (nm :: rest) cs ix =
        ((processMetric rng cs ix nm).1 ++
          (renderFold rng rest (processMetric rng cs ix nm).2.1
            (processMetric rng cs ix nm).2.2).1,
         (renderFold rng rest (processMetric rng cs ix nm).2.1
            (processMetric rng cs ix nm).2.2).2) := rfl
    rw [hred]
    simp only
    by_cases he : nm.1 = name
    · subst he
      have hm2 : nm.2 = m := by
        rw [alookup, if_pos rfl] at hm
        cases hm
        rfl
      subst hm2
      have hKnd := groupSamples_nodup nm.2.samples
      obtain ⟨ga, _, gc⟩ := groupsFold_counter_spec hc hg nm.1
        ((groupSamples nm.2.samples).map Prod.fst) cs ix hKnd
      have hcs1 : (processMetric rng cs ix nm).2.1 =
          (groupsFold nm.1 nm.2 rng ((groupSamples nm.2.samples).map Prod.fst)
            cs ix).2.1 := by
        rw [processMetric_cs]
      have hfinal : ∀ k, cLookup (renderFold rng rest
            (processMetric rng cs ix nm).2.1
            (processMetric rng cs ix nm).2.2).2.1 nm.1 k =
          cLookup (processMetric rng cs ix nm).2.1 nm.1 k := by
        intro k
        unfold cLookup
        rw [renderFold_cs_notin rng rest _ _ hhead]
      refine ⟨?_, ?_⟩
      · intro k v hv
        obtain ⟨v', hv', hle⟩ := ga k v hv
        refine ⟨v', ?_, hle⟩
        rw [hfinal k, hcs1]
        exact hv'
      · intro labels w hw
        rcases List.mem_append.mp hw with h1 | h1
        · rw [processMetric_lines] at h1
          rcases List.mem_append.mp h1 with h2 | h2
          · rcases List.mem_append.mp h2 with h3 | h3
            · split at h3
              · rcases List.mem_singleton.mp h3 with heq
                simp at heq
              · cases h3
            · split at h3
              · rcases List.mem_singleton.mp h3 with heq
                simp at heq
              · cases h3
          · obtain ⟨k, w', heq, hfin, hmono⟩ := gc _ h2
            obtain ⟨hlab, hweq⟩ : labels = key_to_labels k ∧ w = w' := by
              simp only [OutLine.sample.injEq] at heq
              exact ⟨heq.2.1, heq.2.2⟩
            subst hweq
            refine ⟨k, hlab, ?_, hmono⟩
            rw [hfinal k, hcs1]
            exact hfin
        · obtain ⟨nm', hmem, hshape⟩ := renderFold_line_members rng rest _ _ _ h1
          rcases hshape with heq | heq | ⟨labels', w', heq⟩
          · simp at heq
          · simp at heq
          · have h4 : nm.1 = nm'.1 := by
              simp only [OutLine.sample.injEq] at heq
              exact heq.1
            exact absurd (h4 ▸ List.mem_map.mpr ⟨nm', hmem, rfl⟩) hhead
    · have hm' : alookup rest name = some m := by
        rw [alookup, if_neg he] at hm
        exact hm
      have hpres : ∀ k, cLookup (processMetric rng cs ix nm).2.1 name k =
          cLookup cs name k := by
        intro k
        unfold cLookup
        rw [processMetric_cs_other rng cs ix nm he]
      obtain ⟨iha, ihb⟩ := ih name (processMetric rng cs ix nm).2.1
        (processMetric rng cs ix nm).2.2 m hndr hm' hc
      refine ⟨?_, ?_⟩
      · intro k v hv
        exact iha k v ((hpres k).symm ▸ hv)
      · intro labels w hw
        rcases List.mem_append.mp hw with h1 | h1
        · rcases processMetric_line_members rng cs ix nm _ h1 with
            heq | heq | ⟨labels', w', heq⟩
          · simp at heq
          · simp at heq
          · have h4 : name = nm.1 := by
              simp only [OutLine.sample.injEq] at heq
              exact heq.1
            exact absurd h4.symm he
        · obtain ⟨k, hlab, hfin, hmono⟩ := ihb labels w h1
          refine ⟨k, hlab, hfin, ?_⟩
          intro v hv
          exact hmono v ((hpres k).symm ▸ hv)

theorem renderFold_gauge_bounded {rng : Rng} (hg : rng.Good) :
    ∀ (ms : Catalog) (name : String) (cs : CState) (ix : ℕ)
      (m : MetricDefinition) {lo hi : ℚ},
    (ms.map Prod.fst).Nodup → alookup ms name = some m → m.is_counter = false →
    m.min_value = some lo → m.max_value = some hi → lo ≤ hi →
    ∀ labels w, OutLine.sample name labels w ∈ (renderFold rng ms cs ix).1 →
      lo ≤ w ∧ w ≤ hi := by
  intro ms
  induction ms with
  | nil =>
    intro name cs ix m lo hi _ hm
    cases hm
  | cons nm rest ih =>
    intro name cs ix m lo hi hnd hm hc hlo hhi hle labels w hw
    have hnd' : (nm.1 :: rest.map Prod.fst).Nodup := by simpa using hnd
    obtain ⟨hhead, hndr⟩ := List.nodup_cons.mp hnd'
    have hred : renderFold rng (nm :: rest) cs ix =
        ((processMetric rng cs ix nm).1 ++
          (renderFold rng rest (processMetric rng cs ix nm).2.1
            (processMetric rng cs ix nm).2.2).1,
         (renderFold rng rest (processMetric rng cs ix nm).2.1
            (processMetric rng cs ix nm).2.2).2) := rfl
    rw [hred] at hw
    simp only at hw
    by_cases he : nm.1 = name
    · subst he
      have hm2 : nm.2 = m := by
        rw [alookup, if_pos rfl] at hm
        cases hm
        rfl
      subst hm2
      rcases List.mem_append.mp hw with h1 | h1
      · rw [processMetric_lines] at h1
        rcases List.mem_append.mp h1 with h2 | h2
        · rcases List.mem_append.mp h2 with h3 | h3
          · split at h3
            · rcases List.mem_singleton.mp h3 with heq
              simp at heq
            · cases h3
          · split at h3
            · rcases List.mem_singleton.mp h3 with heq
              simp at heq
            · cases h3
        · obtain ⟨_, ghl⟩ := groupsFold_gauge_bounded hc hlo hhi hle hg nm.1
            ((groupSamples nm.2.samples).map Prod.fst) cs ix
          obtain ⟨labels', w', heq, hb1, hb2⟩ := ghl _ h2
          obtain ⟨rfl, rfl⟩ : labels = labels' ∧ w = w' := by
            simp only [OutLine.sample.injEq] at heq
            exact ⟨heq.2.1, heq.2.2⟩
          exact ⟨hb1, hb2⟩
      · obtain ⟨nm', hmem, hshape⟩ := renderFold_line_members rng rest _ _ _ h1
        rcases hshape with heq | heq | ⟨labels', w', heq⟩
        · simp at heq
        · simp at heq
        · have h4 : nm.1 = nm'.1 := by
            simp only [OutLine.sample.injEq] at heq
            exact heq.1
          exact absurd (h4 ▸ List.mem_map.mpr ⟨nm', hmem, rfl⟩) hhead
    · have hm' : alookup rest name = some m := by
        rw [alookup, if_neg he] at hm
        exact hm
      rcases List.mem_append.mp hw with h1 | h1
      · rcases processMetric_line_members rng cs ix nm _ h1 with
          heq | heq | ⟨labels', w', heq⟩
        · simp at heq
        · simp at heq
        · have h4 : name = nm.1 := by
            simp only [OutLine.sample.injEq] at heq
            exact heq.1
          exact absurd h4.symm he
      · exact ih name _ _ m hndr hm' hc hlo hhi hle labels w h1

theorem renderFold_gauge_const {rng : Rng} :
    ∀ (ms : Catalog) (name : String) (cs : CState) (ix : ℕ)
      (m : MetricDefinition) {v : ℚ},
    (ms.map Prod.fst).Nodup → alookup ms name = some m → m.is_counter = false →
    m.min_value = some v → m.max_value = some v → stdPos m = false →
    ∀ labels w, OutLine.sample name labels w ∈ (renderFold rng ms cs ix).1 →
      w = v := by
  intro ms
  induction ms with
  | nil =>
    intro name cs ix m v _ hm
    cases hm
  | cons nm rest ih =>
    intro name cs ix m v hnd hm hc hlo hhi hstd labels w hw
    have hnd' : (nm.1 :: rest.map Prod.fst).Nodup := by simpa using hnd
    obtain ⟨hhead, hndr⟩ := List.nodup_cons.mp hnd'
    have hred : renderFold rng (nm :: rest) cs ix =
        ((processMetric rng cs ix nm).1 ++
          (renderFold rng rest (processMetric rng cs ix nm).2.1
            (processMetric rng cs ix nm).2.2).1,
         (renderFold rng rest (processMetric rng cs ix nm).2.1
            (processMetric rng cs ix nm).2.2).2) := rfl
    rw [hred] at hw
    simp only at hw
    by_cases he : nm.1 = name
    · subst he
      have hm2 : nm.2 = m := by
        rw [alookup, if_pos rfl] at hm
        cases hm
        rfl
      subst hm2
      rcases List.mem_append.mp hw with h1 | h1
      · rw [processMetric_lines] at h1
        rcases List.mem_append.mp h1 with h2 | h2
        · rcases List.mem_append.mp h2 with h3 | h3
          · split at h3
            · rcases List.mem_singleton.mp h3 with heq
              simp at heq
            · cases h3
          · split at h3
            · rcases List.mem_singleton.mp h3 with heq
              simp at heq
            · cases h3
        · obtain ⟨_, ghl⟩ := groupsFold_gauge_const hc hlo hhi hstd nm.1
            ((groupSamples nm.2.samples).map Prod.fst) cs ix
          obtain ⟨labels', heq⟩ := ghl _ h2
          have h5 : w = v := by
            simp only [OutLine.sample.injEq] at heq
            exact heq.2.2
          exact h5
      · obtain ⟨nm', hmem, hshape⟩ := renderFold_line_members rng rest _ _ _ h1
        rcases hshape with heq | heq | ⟨labels', w', heq⟩
        · simp at heq
        · simp at heq
        · have h4 : nm.1 = nm'.1 := by
            simp only [OutLine.sample.injEq] at heq
            exact heq.1
          exact absurd (h4 ▸ List.mem_map.mpr ⟨nm', hmem, rfl⟩) hhead
    · have hm' : alookup rest name = some m := by
        rw [alookup, if_neg he] at hm
        exact hm
      rcases List.mem_append.mp hw with h1 | h1
      · rcases processMetric_line_members rng cs ix nm _ h1 with
          heq | heq | ⟨labels', w', heq⟩
        · simp at heq
        · simp at heq
        · have h4 : name = nm.1 := by
            simp only [OutLine.sample.injEq] at heq
            exact heq.1
          exact absurd h4.symm he
      · exact ih name _ _ m hndr hm' hc hlo hhi hstd labels w h1

theorem renderFold_meta_no_values {rng : Rng} :
    ∀ (ms : Catalog) (name : String) (cs : CState) (ix : ℕ)
      (m : MetricDefinition),
    (ms.map Prod.fst).Nodup → alookup ms name = some m →
    (m.samples = [] ∨ (m.is_counter = true ∧ alookup cs name = none)) →
    (∀ labels w, OutLine.sample name labels w ∉ (renderFold rng ms cs ix).1) ∧
    (m.help_text ≠ "" → OutLine.help name m.help_text ∈ (renderFold rng ms cs ix).1) ∧
    (m.metric_type ≠ "" → OutLine.type name m.metric_type ∈ (renderFold rng ms cs ix).1) := by
  intro ms
  induction ms with
  | nil =>
    intro name cs ix m _ hm
    cases hm
  | cons nm rest ih =>
    intro name cs ix m hnd hm h0
    have hnd' : (nm.1 :: rest.map Prod.fst).Nodup := by simpa using hnd
    obtain ⟨hhead, hndr⟩ := List.nodup_cons.mp hnd'
    have hred : renderFold rng (nm :: rest) cs ix =
        ((processMetric rng cs ix nm).1 ++
          (renderFold rng rest (processMetric rng cs ix nm).2.1
            (processMetric rng cs ix nm).2.2).1,
         (renderFold rng rest (processMetric rng cs ix nm).2.1
            (processMetric rng cs ix nm).2.2).2) := rfl
    rw [hred]
    simp only
    by_cases he : nm.1 = name
    · subst he
      have hm2 : nm.2 = m := by
        rw [alookup, if_pos rfl] at hm
        cases hm
        rfl
      subst hm2
      have hgempty : (groupsFold nm.1 nm.2 rng
          ((groupSamples nm.2.samples).map Prod.fst) cs ix).1 = [] := by
        rcases h0 with h0 | ⟨hc0, hcs0⟩
        · rw [show groupSamples nm.2.samples = [] by rw [h0]; rfl]
          rfl
        · rw [groupsFold_counter_nostate hc0 hcs0]
      refine ⟨?_, ?_, ?_⟩
      · intro labels w hw
        rcases List.mem_append.mp hw with h1 | h1
        · rw [processMetric_lines] at h1
          rcases List.mem_append.mp h1 with h2 | h2
          · rcases List.mem_append.mp h2 with h3 | h3
            · split at h3
              · rcases List.mem_singleton.mp h3 with heq
                simp at heq
              · cases h3
            · split at h3
              · rcases List.mem_singleton.mp h3 with heq
                simp at heq
              · cases h3
          · rw [hgempty] at h2
            cases h2
        · obtain ⟨nm', hmem, hshape⟩ := renderFold_line_members rng rest _ _ _ h1
          rcases hshape with heq | heq | ⟨labels', w', heq⟩
          · simp at heq
          · simp at heq
          · have h4 : nm.1 = nm'.1 := by
              simp only [OutLine.sample.injEq] at heq
              exact heq.1
            exact absurd (h4 ▸ List.mem_map.mpr ⟨nm', hmem, rfl⟩) hhead
      · intro hh
        apply List.mem_append_left
        rw [processMetric_lines]
        apply List.mem_append_left
        apply List.mem_append_left
        rw [if_pos hh]
        exact List.mem_singleton.mpr rfl
      · intro ht
        apply List.mem_append_left
        rw [processMetric_lines]
        apply List.mem_append_left
        apply List.mem_append_right
        rw [if_pos ht]
        exact List.mem_singleton.mpr rfl
    · have hm' : alookup rest name = some m := by
        rw [alookup, if_neg he] at hm
        exact hm
      have h0' : m.samples = [] ∨ (m.is_counter = true ∧
          alookup (processMetric rng cs ix nm).2.1 name = none) := by
        rcases h0 with h0 | ⟨hc0, hcs0⟩
        · exact Or.inl h0
        · refine Or.inr ⟨hc0, ?_⟩
          rw [processMetric_cs_other rng cs ix nm he]
          exact hcs0
      obtain ⟨iha, ihb, ihc⟩ := ih name (processMetric rng cs ix nm).2.1
        (processMetric rng cs ix nm).2.2 m hndr hm' h0'
      refine ⟨?_, ?_, ?_⟩
      · intro labels w hw
        rcases List.mem_append.mp hw with h1 | h1
        · rcases processMetric_line_members rng cs ix nm _ h1 with
            heq | heq | ⟨labels', w', heq⟩
          · simp at heq
          · simp at heq
          · have h4 : name = nm.1 := by
              simp only [OutLine.sample.injEq] at heq
              exact heq.1
            exact absurd h4.symm he
        · exact iha labels w h1
      · intro hh
        exact List.mem_append_right _ (ihb hh)
      · intro ht
        exact List.mem_append_right _ (ihc ht)

/-! ### Lemmas: composing scan and render -/

theorem scan_counter_preserves (g : GenState) (dir : List (String × Option String))
    (rng : Rng) (now : ℚ) (ix : ℕ) {n : String} {sub : List (String × ℚ)}
    (h : alookup g.counter_state n = some sub) :
    alookup (scan_directory g dir rng now ix).1.counter_state n = some sub := by
  unfold scan_directory
  split
  · exact h
  · rcases hb : buildCatalog dir with _ | cat
    · exact h
    · simp only [hb]
      exact seedCounters_fold_preserves rng cat (g.counter_state, ix) h

theorem scan_cLookup_preserves (g : GenState) (dir : List (String × Option String))
    (rng : Rng) (now : ℚ) (ix : ℕ) {n k : String} {v : ℚ}
    (h : cLookup g.counter_state n k = some v) :
    cLookup (scan_directory g dir rng now ix).1.counter_state n k = some v := by
  unfold cLookup at h ⊢
  rcases h1 : alookup g.counter_state n with _ | sub
  · rw [h1] at h
    cases h
  · rw [h1] at h
    rw [scan_counter_preserves g dir rng now ix h1]
    exact h

theorem sortCatalog_nodup {cat : Catalog} (h : (cat.map Prod.fst).Nodup) :
    ((sortCatalog cat).map Prod.fst).Nodup :=
  (((List.perm_insertionSort nameLe cat).map Prod.fst).symm).nodup h

theorem sortCatalog_lookup {cat : Catalog} (h : (cat.map Prod.fst).Nodup)
    (x : String) : alookup (sortCatalog cat) x = alookup cat x :=
  alookup_perm (List.perm_insertionSort nameLe cat) (sortCatalog_nodup h) x

theorem generate_metrics_nonempty (g : GenState)
    (dir : List (String × Option String)) (rng : Rng) (now : ℚ) (ix : ℕ)
    (h : ¬ (scan_directory g dir rng now ix).1.metrics = []) :
    generate_metrics g dir rng now ix =
      ((renderFold rng (sortCatalog (scan_directory g dir rng now ix).1.metrics)
          (scan_directory g dir rng now ix).1.counter_state
          (scan_directory g dir rng now ix).2).1,
       { (scan_directory g dir rng now ix).1 with
         counter_state :=
           (renderFold rng (sortCatalog (scan_directory g dir rng now ix).1.metrics)
             (scan_directory g dir rng now ix).1.counter_state
             (scan_directory g dir rng now ix).2).2.1 },
       (renderFold rng (sortCatalog (scan_directory g dir rng now ix).1.metrics)
          (scan_directory g dir rng now ix).1.counter_state
          (scan_directory g dir rng now ix).2).2.2) := by
  unfold generate_metrics
  rw [if_neg h]

/-- **C1.**  Counter series behave monotonically across a
`generate_metrics` call: (i) every counter-state entry present before the
call is still present afterwards with a value at least as large (the call
adds a non-negative increment); (ii) every emitted sample line for a
counter-typed catalog metric carries exactly the newly stored value of its
label key, which is at least any previously stored value — so across any
sequence of calls the stored and emitted values of a series form a
non-decreasing sequence. -/
theorem counter_values_nondecreasing (g : GenState)
    (dir : List (String × Option String)) (rng : Rng) (now : ℚ) (ix : ℕ)
    (name : String) (m : MetricDefinition) (hg : rng.Good)
    (hnd : (((scan_directory g dir rng now ix).1.metrics).map Prod.fst).Nodup)
    (hm : alookup (scan_directory g dir rng now ix).1.metrics name = some m)
    (hc : m.is_counter = true) :
    (∀ k v, cLookup g.counter_state name k = some v →
      ∃ v', cLookup (generate_metrics g dir rng now ix).2.1.counter_state
        name k = some v' ∧ v ≤ v') ∧
    (∀ labels w,
      OutLine.sample name labels w ∈ (generate_metrics g dir rng now ix).1 →
      ∃ k, labels = key_to_labels k ∧
        cLookup (generate_metrics g dir rng now ix).2.1.counter_state
          name k = some w ∧
        ∀ v, cLookup g.counter_state name k = some v → v ≤ w) := by
  have hne : ¬ (scan_directory g dir rng now ix).1.metrics = [] := by
    intro h
    rw [h] at hm
    cases hm
  rw [generate_metrics_nonempty g dir rng now ix hne]
  obtain ⟨ra, rb⟩ := renderFold_counter_spec hg
    (sortCatalog (scan_directory g dir rng now ix).1.metrics) name
    (scan_directory g dir rng now ix).1.counter_state
    (scan_directory g dir rng now ix).2 m (sortCatalog_nodup hnd)
    (by rw [sortCatalog_lookup hnd]; exact hm) hc
  constructor
  · intro k v hv
    exact ra k v (scan_cLookup_preserves g dir rng now ix hv)
  · intro labels w hw
    obtain ⟨k, hlab, hfin, hmono⟩ := rb labels w hw
    exact ⟨k, hlab, hfin,
      fun v hv => hmono v (scan_cLookup_preserves g dir rng now ix hv)⟩

/-- **C2.**  For every non-counter catalog metric with defined
`min_value ≤ max_value`, every value emitted by `generate_metrics` for any
of its label-key groups lies within `[min_value, max_value]`: the
normal-distribution path clamps, and the fallback draws uniformly from the
interval. -/
theorem gauge_values_within_bounds (g : GenState)
    (dir : List (String × Option String)) (rng : Rng) (now : ℚ) (ix : ℕ)
    (name : String) (m : MetricDefinition) (lo hi : ℚ) (hg : rng.Good)
    (hnd : (((scan_directory g dir rng now ix).1.metrics).map Prod.fst).Nodup)
    (hm : alookup (scan_directory g dir rng now ix).1.metrics name = some m)
    (hc : m.is_counter = false) (hlo : m.min_value = some lo)
    (hhi : m.max_value = some hi) (hle : lo ≤ hi) :
    ∀ labels w,
      OutLine.sample name labels w ∈ (generate_metrics g dir rng now ix).1 →
      lo ≤ w ∧ w ≤ hi := by
  have hne : ¬ (scan_directory g dir rng now ix).1.metrics = [] := by
    intro h
    rw [h] at hm
    cases hm
  rw [generate_metrics_nonempty g dir rng now ix hne]
  exact renderFold_gauge_bounded hg
    (sortCatalog (scan_directory g dir rng now ix).1.metrics) name
    (scan_directory g dir rng now ix).1.counter_state
    (scan_directory g dir rng now ix).2 m (sortCatalog_nodup hnd)
    (by rw [sortCatalog_lookup hnd]; exact hm) hc hlo hhi hle

/-! ### Lemmas: constant sample collections (C10) -/

theorem foldl_min_const {v : ℚ} : ∀ (r : List ℚ), (∀ x ∈ r, x = v) →
    r.foldl min v = v := by
  intro r
  induction r with
  | nil => intro _; rfl
  | cons y r' ih =>
    intro h
    have hy : y = v := h y (List.mem_cons_self _ _)
    subst hy
    rw [List.foldl_cons, min_self]
    exact ih (fun x hx => h x (List.mem_cons_of_mem _ hx))

theorem foldl_max_const {v : ℚ} : ∀ (r : List ℚ), (∀ x ∈ r, x = v) →
    r.foldl max v = v := by
  intro r
  induction r with
  | nil => intro _; rfl
  | cons y r' ih =>
    intro h
    have hy : y = v := h y (List.mem_cons_self _ _)
    subst hy
    rw [List.foldl_cons, max_self]
    exact ih (fun x hx => h x (List.mem_cons_of_mem _ hx))

theorem pyMinL_const {vs : List ℚ} {v : ℚ} (h : ∀ x ∈ vs, x = v)
    (hne : vs ≠ []) : pyMinL vs = v := by
  rcases vs with _ | ⟨x, r⟩
  · exact absurd rfl hne
  · have hx : x = v := h x (List.mem_cons_self _ _)
    subst hx
    exact foldl_min_const r (fun y hy => h y (List.mem_cons_of_mem _ hy))

theorem pyMaxL_const {vs : List ℚ} {v : ℚ} (h : ∀ x ∈ vs, x = v)
    (hne : vs ≠ []) : pyMaxL vs = v := by
  rcases vs with _ | ⟨x, r⟩
  · exact absurd rfl hne
  · have hx : x = v := h x (List.mem_cons_self _ _)
    subst hx
    exact foldl_max_const r (fun y hy => h y (List.mem_cons_of_mem _ hy))

theorem sum_const_list {v : ℚ} : ∀ (vs : List ℚ), (∀ x ∈ vs, x = v) →
    vs.sum = vs.length * v := by
  intro vs
  induction vs with
  | nil => intro _; simp
  | cons x r ih =>
    intro h
    have hx : x = v := h x (List.mem_cons_self _ _)
    rw [List.sum_cons, ih (fun y hy => h y (List.mem_cons_of_mem _ hy)), hx]
    rw [List.length_cons]
    push_cast
    ring

theorem pyMean_const {vs : List ℚ} {v : ℚ} (h : ∀ x ∈ vs, x = v)
    (hne : vs ≠ []) : pyMean vs = v := by
  unfold pyMean
  rw [sum_const_list vs h]
  have hlen : (vs.length : ℚ) ≠ 0 := by
    have := List.length_pos.mpr hne
    positivity
  field_simp

theorem sampleVarQ_const {vs : List ℚ} {v : ℚ} (h : ∀ x ∈ vs, x = v)
    (hne : vs ≠ []) : sampleVarQ vs = 0 := by
  unfold sampleVarQ
  have hsum : (vs.map (fun x => (x - pyMean vs) ^ 2)).sum = 0 := by
    apply List.sum_eq_zero
    intro y hy
    obtain ⟨x, hx, rfl⟩ := List.mem_map.mp hy
    rw [h x hx, pyMean_const h hne]
    ring
  rw [hsum]
  exact zero_div _

theorem post_init_is_counter (m : MetricDefinition) :
    (post_init m).is_counter = decide (pyLower m.metric_type = "counter") := by
  by_cases hs : m.samples = []
  · simp [post_init, hs]
  · simp [post_init, hs]

theorem post_init_const {m0 : MetricDefinition} {v : ℚ}
    (hne : m0.samples ≠ []) (hall : ∀ s ∈ m0.samples, s.value = v) :
    (post_init m0).min_value = some v ∧ (post_init m0).max_value = some v ∧
    (post_init m0).mean_value = some v ∧ (post_init m0).std_dev_sq = some 0 := by
  have hvals : ∀ x ∈ m0.samples.map MetricSample.value, x = v := by
    intro x hx
    obtain ⟨s, hs, rfl⟩ := List.mem_map.mp hx
    exact hall s hs
  have hlen : m0.samples.map MetricSample.value ≠ [] := by
    simpa using hne
  simp only [post_init, if_neg hne]
  refine ⟨?_, ?_, ?_, ?_⟩
  · rw [pyMinL_const hvals hlen]
  · rw [pyMaxL_const hvals hlen]
  · rw [pyMean_const hvals hlen]
  · split
    · rw [sampleVarQ_const hvals hlen]
    · rfl

/-- **C10.**  A non-counter metric all of whose samples carry the same
value `v` gets derived statistics `min = max = mean = v` and a standard
deviation of `0` (`std_dev_sq = 0`), and consequently every value
`generate_metrics` emits for any of its label-key groups is exactly `v`
(the generator falls into the uniform branch with a degenerate interval). -/
theorem constant_metric_emits_constant (g : GenState)
    (dir : List (String × Option String)) (rng : Rng) (now : ℚ) (ix : ℕ)
    (name : String) (m0 : MetricDefinition) (v : ℚ)
    (hne0 : m0.samples ≠ []) (hall : ∀ s ∈ m0.samples, s.value = v)
    (htype : ¬ pyLower m0.metric_type = "counter")
    (hnd : (((scan_directory g dir rng now ix).1.metrics).map Prod.fst).Nodup)
    (hm : alookup (scan_directory g dir rng now ix).1.metrics name
      = some (post_init m0)) :
    (post_init m0).min_value = some v ∧ (post_init m0).max_value = some v ∧
    (post_init m0).mean_value = some v ∧ (post_init m0).std_dev_sq = some 0 ∧
    ∀ labels w,
      OutLine.sample name labels w ∈ (generate_metrics g dir rng now ix).1 →
      w = v := by
  obtain ⟨h1, h2, h3, h4⟩ := post_init_const hne0 hall
  refine ⟨h1, h2, h3, h4, ?_⟩
  have hc : (post_init m0).is_counter = false := by
    rw [post_init_is_counter]
    exact decide_eq_false htype
  have hstd : stdPos (post_init m0) = false := by
    unfold stdPos
    rw [h4]
    rfl
  have hnemet : ¬ (scan_directory g dir rng now ix).1.metrics = [] := by
    intro h
    rw [h] at hm
    cases hm
  rw [generate_metrics_nonempty g dir rng now ix hnemet]
  exact renderFold_gauge_const
    (sortCatalog (scan_directory g dir rng now ix).1.metrics) name
    (scan_directory g dir rng now ix).1.counter_state
    (scan_directory g dir rng now ix).2 (post_init m0) (sortCatalog_nodup hnd)
    (by rw [sortCatalog_lookup hnd]; exact hm) hc h1 h2 hstd

/-- **C9 (amended).**  A catalog metric with zero samples (or a
counter-typed one without any counter state for its name) gets no value
line from `generate_metrics`; its `# HELP` and `# TYPE` lines are still
emitted whenever the corresponding metadata is non-empty. -/
theorem zero_sample_metric_emits_metadata_only (g : GenState)
    (dir : List (String × Option String)) (rng : Rng) (now : ℚ) (ix : ℕ)
    (name : String) (m : MetricDefinition)
    (hnd : (((scan_directory g dir rng now ix).1.metrics).map Prod.fst).Nodup)
    (hm : alookup (scan_directory g dir rng now ix).1.metrics name = some m)
    (h0 : m.samples = [] ∨ (m.is_counter = true ∧
      alookup (scan_directory g dir rng now ix).1.counter_state name = none)) :
    (∀ labels w,
      OutLine.sample name labels w ∉ (generate_metrics g dir rng now ix).1) ∧
    (m.help_text ≠ "" →
      OutLine.help name m.help_text ∈ (generate_metrics g dir rng now ix).1) ∧
    (m.metric_type ≠ "" →
      OutLine.type name m.metric_type ∈ (generate_metrics g dir rng now ix).1) := by
  have hnemet : ¬ (scan_directory g dir rng now ix).1.metrics = [] := by
    intro h
    rw [h] at hm
    cases hm
  rw [generate_metrics_nonempty g dir rng now ix hnemet]
  exact renderFold_meta_no_values
    (sortCatalog (scan_directory g dir rng now ix).1.metrics) name
    (scan_directory g dir rng now ix).1.counter_state
    (scan_directory g dir rng now ix).2 m (sortCatalog_nodup hnd)
    (by rw [sortCatalog_lookup hnd]; exact hm) h0

/-! ### Lemmas: the label-key round trip (C7) -/

theorem takeWhile_append_cons {α : Type} (p : α → Bool) (xs : List α) (y : α)
    (ys : List α) (hx : ∀ x ∈ xs, p x = true) (hy : p y = false) :
    (xs ++ y :: ys).takeWhile p = xs ∧ (xs ++ y :: ys).dropWhile p = y :: ys := by
  induction xs with
  | nil =>
    simp only [List.nil_append, List.takeWhile_cons, List.dropWhile_cons, hy]
    exact ⟨rfl, rfl⟩
  | cons x xs' ih =>
    have hx0 : p x = true := hx x (List.mem_cons_self _ _)
    obtain ⟨ih1, ih2⟩ := ih (fun z hz => hx z (List.mem_cons_of_mem _ hz))
    constructor
    · simp [List.takeWhile_cons, hx0, ih1]
    · simp [List.dropWhile_cons, hx0, ih2]

theorem splitOnChar_no_sep (sep : Char) (cs : List Char) (h : sep ∉ cs) :
    splitOnChar sep cs = [cs] := by
  induction cs with
  | nil => rfl
  | cons c r ih =>
    have hc : ¬ c = sep := fun e => h (e ▸ List.mem_cons_self _ _)
    have ih' := ih (fun hm => h (List.mem_cons_of_mem _ hm))
    simp only [splitOnChar, if_neg hc, ih']

theorem splitOnChar_append_sep (sep : Char) (a b : List Char) (h : sep ∉ a) :
    splitOnChar sep (a ++ sep :: b) = a :: splitOnChar sep b := by
  induction a with
  | nil => simp [splitOnChar]
  | cons c a' ih =>
    have hc : ¬ c = sep := fun e => h (e ▸ List.mem_cons_self _ _)
    have ih' := ih (fun hm => h (List.mem_cons_of_mem _ hm))
    simp only [List.cons_append, splitOnChar, if_neg hc]
    show (match splitOnChar sep (a' ++ sep :: b) with
          | [] => [[c]]
          | piece :: more => (c :: piece) :: more)
        = (c :: a') :: splitOnChar sep b
    rw [ih']

theorem aset_fresh {α : Type} {l : List (String × α)} {k : String} {v : α}
    (h : alookup l k = none) : aset l k v = l ++ [(k, v)] := by
  induction l with
  | nil => rfl
  | cons a rest ih =>
    obtain ⟨ak, av⟩ := a
    by_cases h1 : ak = k
    · rw [alookup, if_pos h1] at h
      cases h
    · rw [alookup, if_neg h1] at h
      rw [aset, if_neg h1, ih h]
      rfl

theorem foldl_aset_fresh {α : Type} :
    ∀ (ps : List (String × α)) (acc : List (String × α)),
    (ps.map Prod.fst).Nodup → (∀ p ∈ ps, alookup acc p.1 = none) →
    ps.foldl (fun acc p => aset acc p.1 p.2) acc = acc ++ ps := by
  intro ps
  induction ps with
  | nil =>
    intro acc _ _
    simp
  | cons p rest ih =>
    intro acc hnd hfr
    rw [List.map_cons] at hnd
    obtain ⟨hp, hndr⟩ := List.nodup_cons.mp hnd
    have h1 : aset acc p.1 p.2 = acc ++ [(p.1, p.2)] :=
      aset_fresh (hfr p (List.mem_cons_self _ _))
    rw [List.foldl_cons, h1]
    have hfr' : ∀ p' ∈ rest, alookup (acc ++ [(p.1, p.2)]) p'.1 = none := by
      intro p' hp'
      rw [alookup_append, hfr p' (List.mem_cons_of_mem _ hp')]
      have hne : ¬ p.1 = p'.1 := by
        intro e
        exact hp (e ▸ List.mem_map.mpr ⟨p', hp', rfl⟩)
      simp [alookup, hne]
    rw [ih _ hndr hfr']
    simp

theorem data_append_pair (a b : String) :
    (a ++ "=" ++ b).data = a.data ++ '=' :: b.data := by
  have h1 : (a ++ "=" ++ b).data = (a ++ "=").data ++ b.data := rfl
  have h2 : (a ++ "=").data = a.data ++ ['='] := rfl
  rw [h1, h2, List.append_assoc]
  rfl

theorem splitOnChar_joinComma :
    ∀ (ps : List String), (∀ s ∈ ps, ',' ∉ s.data) → ps ≠ [] →
    splitOnChar ',' (joinComma ps) = ps.map String.data := by
  intro ps
  induction ps with
  | nil => intro _ h; exact absurd rfl h
  | cons s rest ih =>
    intro h _
    rcases rest with _ | ⟨r0, r'⟩
    · exact splitOnChar_no_sep ',' s.data (h s (List.mem_cons_self _ _))
    · have hj : joinComma (s :: r0 :: r') = s.data ++ ',' :: joinComma (r0 :: r') := rfl
      rw [hj, splitOnChar_append_sep ',' s.data _ (h s (List.mem_cons_self _ _))]
      rw [ih (fun t ht => h t (List.mem_cons_of_mem _ ht)) (by simp)]
      rfl

theorem joinComma_ne_nil :
    ∀ (ps : List String), ps ≠ [] → (∀ s ∈ ps, s.data ≠ []) →
    joinComma ps ≠ [] := by
  intro ps
  rcases ps with _ | ⟨s, rest⟩
  · intro h _; exact absurd rfl h
  · intro _ hd
    rcases rest with _ | ⟨r0, r'⟩
    · exact hd s (List.mem_cons_self _ _)
    · have hj : joinComma (s :: r0 :: r') = s.data ++ ',' :: joinComma (r0 :: r') := rfl
      rw [hj]
      intro he
      rcases List.append_eq_nil.mp he with ⟨_, h2⟩
      cases h2

theorem keyItemFold_pair (acc : List (String × String)) (p : String × String)
    (hk : ('=' : Char) ∉ p.1.data) :
    keyItemFold acc (p.1 ++ "=" ++ p.2).data = aset acc p.1 p.2 := by
  have hx : ∀ x ∈ p.1.data, (fun c => !(c = '=')) x = true := by
    intro x hx
    simp only [Bool.not_eq_true']
    exact decide_eq_false (fun e => hk (e ▸ hx))
  have hy : (fun c => !(c = '=')) '=' = false := by simp
  obtain ⟨h1, h2⟩ := takeWhile_append_cons (fun c => !(c = '=')) p.1.data '='
    p.2.data hx hy
  unfold keyItemFold
  rw [data_append_pair, h2]
  simp only
  rw [h1]

/-- The core round trip: with pairwise-distinct label names that contain
no `','`/`'='` and label values that contain no `','`, rebuilding the
labels dict from the canonical key recovers the original label set up to
the canonical ordering. -/
theorem key_roundtrip (L : List (String × String))
    (hnd : (L.map Prod.fst).Nodup)
    (hk : ∀ p ∈ L, ((',' : Char) ∉ p.1.data ∧ ('=' : Char) ∉ p.1.data) ∧
      (',' : Char) ∉ p.2.data) :
    (key_to_labels (labels_to_key L)).Perm L := by
  by_cases hL : L = []
  · subst hL
    simp [labels_to_key, key_to_labels]
  · have hperm : (sortPairs L).Perm L := List.perm_insertionSort pairLe L
    have hmemP : ∀ p ∈ sortPairs L,
        ((',' : Char) ∉ p.1.data ∧ ('=' : Char) ∉ p.1.data) ∧
        (',' : Char) ∉ p.2.data :=
      fun p hp => hk p (hperm.subset hp)
    have hsne : sortPairs L ≠ [] := by
      intro he
      exact hL (List.Perm.nil_eq (he ▸ hperm)).symm
    have hdata : ∀ s ∈ (sortPairs L).map (fun p => p.1 ++ "=" ++ p.2),
        ',' ∉ s.data := by
      intro s hs
      obtain ⟨p, hp, rfl⟩ := List.mem_map.mp hs
      rw [data_append_pair]
      intro hmem
      rcases List.mem_append.mp hmem with h1 | h1
      · exact (hmemP p hp).1.1 h1
      · rcases List.mem_cons.mp h1 with he | h2
        · cases he
        · exact (hmemP p hp).2 h2
    have hdne : ∀ s ∈ (sortPairs L).map (fun p => p.1 ++ "=" ++ p.2),
        s.data ≠ [] := by
      intro s hs
      obtain ⟨p, hp, rfl⟩ := List.mem_map.mp hs
      rw [data_append_pair]
      intro he
      rcases List.append_eq_nil.mp he with ⟨_, h2⟩
      cases h2
    have hpne : (sortPairs L).map (fun p => p.1 ++ "=" ++ p.2) ≠ [] := by
      simpa using hsne
    have hjoin : joinComma ((sortPairs L).map (fun p => p.1 ++ "=" ++ p.2)) ≠ [] :=
      joinComma_ne_nil _ hpne hdne
    unfold labels_to_key
    rw [if_neg hL]
    unfold key_to_labels
    rw [if_neg (fun he => hjoin (congrArg String.data he))]
    have hsplit : splitOnChar ','
        (String.mk (joinComma ((sortPairs L).map (fun p => p.1 ++ "=" ++ p.2)))).data
        = ((sortPairs L).map (fun p => p.1 ++ "=" ++ p.2)).map String.data := by
      exact splitOnChar_joinComma _ hdata hpne
    rw [hsplit, List.foldl_map, List.foldl_map]
    have hfold : ∀ (qs : List (String × String)) (acc : List (String × String)),
        (∀ p ∈ qs, ('=' : Char) ∉ p.1.data) →
        qs.foldl (fun acc p => keyItemFold acc (String.data ((fun p => p.1 ++ "=" ++ p.2) p))) acc
          = qs.foldl (fun acc p => aset acc p.1 p.2) acc := by
      intro qs
      induction qs with
      | nil => intro acc _; rfl
      | cons p rest ihq =>
        intro acc hq
        rw [List.foldl_cons, List.foldl_cons]
        rw [show String.data ((fun p => p.1 ++ "=" ++ p.2) p) = (p.1 ++ "=" ++ p.2).data from rfl]
        rw [keyItemFold_pair acc p (hq p (List.mem_cons_self _ _))]
        exact ihq _ (fun x hx => hq x (List.mem_cons_of_mem _ hx))
    rw [hfold _ _ (fun p hp => (hmemP p hp).1.2)]
    have hndp : ((sortPairs L).map Prod.fst).Nodup :=
      ((hperm.map Prod.fst).symm).nodup hnd
    rw [foldl_aset_fresh (sortPairs L) [] hndp (fun p _ => rfl)]
    rw [List.nil_append]
    exact hperm

theorem isLabelChar_ne {c : Char} (h : isLabelChar c = true) :
    ¬ c = ',' ∧ ¬ c = '=' := by
  constructor
  · intro he
    subst he
    simp [isLabelChar] at h
  · intro he
    subst he
    simp [isLabelChar] at h

theorem tryLabelAt_name_chars {cs : List Char} {r : String × String × List Char}
    (h : tryLabelAt cs = some r) : ∀ c ∈ r.1.data, isLabelChar c = true := by
  unfold tryLabelAt at h
  split at h
  case h_2 => cases h
  case h_1 rest heq =>
    split at h
    case h_2 => cases h
    case h_1 q after heq2 =>
      cases h
      intro c hc
      exact List.mem_takeWhile_imp hc

theorem parseLabelsGo_name_chars :
    ∀ (fuel : ℕ) (cs : List Char) (p : String × String),
    p ∈ parseLabelsGo fuel cs → ∀ c ∈ p.1.data, isLabelChar c = true := by
  intro fuel
  induction fuel with
  | zero => intro cs p hp; cases hp
  | succ f ih =>
    intro cs p hp
    rcases cs with _ | ⟨c0, rest⟩
    · cases hp
    · rw [parseLabelsGo] at hp
      split at hp
      · split at hp
        case h_1 r heq =>
          rcases List.mem_cons.mp hp with he | hm
          · subst he
            exact tryLabelAt_name_chars heq
          · exact ih _ _ hm
        case h_2 => exact ih _ _ hp
      · exact ih _ _ hp

theorem labelsOf_mem {content : List Char} {x : String × String}
    (h : x ∈ labelsOf content) : x ∈ parseLabelsRaw content := by
  unfold labelsOf at h
  have hgen : ∀ (raws : List (String × String)) (acc : List (String × String)),
      x ∈ raws.foldl (fun acc p => aset acc p.1 p.2) acc → x ∈ acc ∨ x ∈ raws := by
    intro raws
    induction raws with
    | nil => intro acc hx; exact Or.inl hx
    | cons p rest ihr =>
      intro acc hx
      rcases ihr _ hx with h1 | h1
      · rcases mem_aset h1 with h2 | h2
        · exact Or.inl h2
        · exact Or.inr (h2 ▸ List.mem_cons_self _ _)
      · exact Or.inr (List.mem_cons_of_mem _ h1)
  rcases hgen _ _ h with h1 | h1
  · cases h1
  · exact h1

theorem labelsOf_nodup (content : List Char) :
    ((labelsOf content).map Prod.fst).Nodup := by
  unfold labelsOf
  have hgen : ∀ (raws : List (String × String)) (acc : List (String × String)),
      (acc.map Prod.fst).Nodup →
      ((raws.foldl (fun acc p => aset acc p.1 p.2) acc).map Prod.fst).Nodup := by
    intro raws
    induction raws with
    | nil => intro acc h; exact h
    | cons p rest ihr => intro acc h; exact ihr _ (aset_nodup _ _ h)
  exact hgen _ [] (by simp)

/-- **C7 (amended).**  For every valid sample line, parsing recovers the
metric name and the exact rational value of the literal, and the written
label set (the parsed set canonicalised through `_labels_to_key` /
`_key_to_labels`, which is how `generate_metrics` re-serialises a series)
equals the parsed label set as an unordered name→value mapping *provided
no parsed label value contains a comma*; a comma inside a label value is
corrupted by the round trip. -/
theorem parsed_labels_roundtrip (line : List Char) (name : String)
    (L : List (String × String)) (q : ℚ)
    (hp : parseSampleLine line = some (name, L, q))
    (hv : ∀ p ∈ L, (',' : Char) ∉ p.2.data) :
    (key_to_labels (labels_to_key L)).Perm L := by
  have hshape : L = [] ∨ ∃ content, L = labelsOf content := by
    rcases line with _ | ⟨c0, rest⟩
    · rw [show parseSampleLine [] = none from rfl] at hp
      cases hp
    · unfold parseSampleLine at hp
      rcases hn : isNameStart c0 with _ | _
      · simp only [hn, Bool.false_eq_true, if_false] at hp
        cases hp
      · simp only [hn, if_true] at hp
        split at hp
        case h_1 rest2 heq =>
          rcases ht : tryBraces [] rest2 with _ | ⟨content, q2⟩
          · simp only [ht] at hp
            cases hp
          · simp only [ht] at hp
            injection hp with hp2
            have h3 : labelsOf content = L := congrArg (fun t => t.2.1) hp2
            exact Or.inr ⟨content, h3.symm⟩
        case h_2 =>
          rcases hpv : parseValueTs (List.dropWhile isNameChar (c0 :: rest)) with _ | q2
          · rw [hpv] at hp
            cases hp
          · rw [hpv] at hp
            injection hp with hp2
            have h3 : ([] : List (String × String)) = L := congrArg (fun t => t.2.1) hp2
            exact Or.inl h3.symm
  rcases hshape with rfl | ⟨content, rfl⟩
  · simp [labels_to_key, key_to_labels]
  · apply key_roundtrip _ (labelsOf_nodup content)
    intro p hpmem
    refine ⟨?_, hv p hpmem⟩
    have hchars := parseLabelsGo_name_chars content.length content p
      (labelsOf_mem hpmem)
    exact ⟨fun hmem => (isLabelChar_ne (hchars _ hmem)).1 rfl,
      fun hmem => (isLabelChar_ne (hchars _ hmem)).2 rfl⟩

section ConcreteScanFacts

attribute [local semireducible] Rat.add Rat.mul Rat.inv Rat.sub

/-- Witness for C1 at a concrete input. -/
theorem counter_values_nondecreasing_witness :
    ∃ v', cLookup (generate_metrics
        ⟨[("c", ⟨"c", "counter", "", [⟨1, []⟩], some 1, some 1, some 1, some 0, true⟩)],
         [("c", [("", 5)])], 100⟩
        [] ⟨fun _ => 1/2, fun _ => 0⟩ 100 0).2.1.counter_state "c" "" = some v' ∧
      (5 : ℚ) ≤ v' :=
  (counter_values_nondecreasing
    ⟨[("c", ⟨"c", "counter", "", [⟨1, []⟩], some 1, some 1, some 1, some 0, true⟩)],
     [("c", [("", 5)])], 100⟩
    [] ⟨fun _ => 1/2, fun _ => 0⟩ 100 0 "c"
    ⟨"c", "counter", "", [⟨1, []⟩], some 1, some 1, some 1, some 0, true⟩
    (fun _ => ⟨by show (0 : ℚ) ≤ 1 / 2; decide, by show (1 : ℚ) / 2 ≤ 1; decide⟩)
    (by decide) rfl rfl).1 "" 5 rfl

/-- Witness for C2 at a concrete input: the single emitted sample value `7`
of the gauge `t` lies within its stored `[5, 15]`. -/
theorem gauge_values_within_bounds_witness :
    (5 : ℚ) ≤ 7 ∧ (7 : ℚ) ≤ 15 :=
  gauge_values_within_bounds
    ⟨[("t", ⟨"t", "gauge", "", [⟨5, []⟩, ⟨15, []⟩], some 5, some 15, some 10, some 50, false⟩)],
     [], 100⟩
    [] ⟨fun _ => 1/2, fun _ => 7⟩ 100 0 "t"
    ⟨"t", "gauge", "", [⟨5, []⟩, ⟨15, []⟩], some 5, some 15, some 10, some 50, false⟩
    5 15
    (fun _ => ⟨by show (0 : ℚ) ≤ 1 / 2; decide, by show (1 : ℚ) / 2 ≤ 1; decide⟩)
    (by decide) rfl rfl rfl rfl (by decide) [] 7 (by decide)

/-- **C3 (counterexample).**  A counter metric name that already has a
Counter State Store entry gets *no* seed for a newly appearing label key:
after a successful refresh the catalog holds counter metric `m` with
samples keyed `a=1` and `a=2` and defined `[min, max]`, the pre-existing
entry for `a=1` is kept, but `a=2` — which had no entry before the refresh
— is still missing one, contradicting the claim. -/
theorem new_label_key_of_existing_counter_not_seeded :
    (alookup (scan_directory ⟨[], [("m", [("a=1", 5)])], 0⟩
        [("f.prom", some "# TYPE m counter\nm\x7ba=\"1\"\x7d 1\nm\x7ba=\"2\"\x7d 2")]
        ⟨fun _ => 1/2, fun _ => 0⟩ 100 0).1.metrics "m").map
        (fun m => (m.is_counter, m.min_value, m.max_value,
          m.samples.map (fun s => labels_to_key s.labels)))
      = some (true, some 1, some 2, ["a=1", "a=2"]) ∧
    cLookup (scan_directory ⟨[], [("m", [("a=1", 5)])], 0⟩
        [("f.prom", some "# TYPE m counter\nm\x7ba=\"1\"\x7d 1\nm\x7ba=\"2\"\x7d 2")]
        ⟨fun _ => 1/2, fun _ => 0⟩ 100 0).1.counter_state "m" "a=1" = some 5 ∧
    cLookup (scan_directory ⟨[], [("m", [("a=1", 5)])], 0⟩
        [("f.prom", some "# TYPE m counter\nm\x7ba=\"1\"\x7d 1\nm\x7ba=\"2\"\x7d 2")]
        ⟨fun _ => 1/2, fun _ => 0⟩ 100 0).1.counter_state "m" "a=2" = none := by
  refine ⟨?_, ?_, ?_⟩ <;> decide

/-- Witness for the amended C3 at a concrete input: a fresh counter name
gets its label key seeded within the observed range. -/
theorem scan_seeding_witness :
    ∃ w, cLookup (scan_directory ⟨[], [], 0⟩
        [("f.prom", some "# TYPE c counter\nc\x7ba=\"1\"\x7d 3\nc\x7ba=\"1\"\x7d 5")]
        ⟨fun _ => 1/2, fun _ => 0⟩ 100 0).1.counter_state "c"
        (labels_to_key [("a", "1")]) = some w ∧ (3 : ℚ) ≤ w ∧ w ≤ 5 := by
  have h := (scan_seeding ⟨[], [], 0⟩
      [("f.prom", some "# TYPE c counter\nc\x7ba=\"1\"\x7d 3\nc\x7ba=\"1\"\x7d 5")]
      ⟨fun _ => 1/2, fun _ => 0⟩ 100 0 _
      (fun _ => ⟨by show (0 : ℚ) ≤ 1 / 2; decide, by show (1 : ℚ) / 2 ≤ 1; decide⟩)
      (by decide) rfl).2
  exact h "c" _ 3 5 rfl (by decide) rfl (by decide) (by decide) (by decide)
    ⟨3, [("a", "1")]⟩ (by decide)

/-- **C5 (counterexample).**  With files `a.prom` (readable, containing
`m 1`) and `b.prom` (raising an I/O error), the refresh installs nothing:
the catalog stays empty instead of containing `m` parsed from `a.prom`. -/
theorem refresh_skips_all_files_on_single_error :
    (scan_directory ⟨[], [], 0⟩ [("a.prom", some "m 1"), ("b.prom", none)]
      ⟨fun _ => 1/2, fun _ => 0⟩ 100 0).1.metrics = [] ∧
    alookup (scan_directory ⟨[], [], 0⟩ [("a.prom", some "m 1"), ("b.prom", none)]
      ⟨fun _ => 1/2, fun _ => 0⟩ 100 0).1.metrics "m" = none := by
  refine ⟨?_, ?_⟩ <;> decide

/-- **C4 (counterexample).**  `a.prom` holds `m 20`, `b.prom` holds
`m 10`: the merged entry's samples are `[20, 10]` but its stored
statistics are those of the first file alone — `min_value = 20`, whereas
the minimum of the full merged collection is `10` (and `mean_value = 20`,
not `15`). -/
theorem merged_stats_stale_after_merge :
    ((buildCatalog [("a.prom", some "m 20"), ("b.prom", some "m 10")]).bind
      (fun cat => alookup cat "m")).map
        (fun m => (m.min_value, m.max_value, m.mean_value,
          m.samples.map MetricSample.value))
      = some (some 20, some 20, some 20, [20, 10]) ∧
    pyMinL [20, 10] = 10 ∧ pyMean [20, 10] = 15 := by
  refine ⟨?_, ?_, ?_⟩ <;> decide

/-- Witness for the amended C4 at a concrete input. -/
theorem merged_stats_from_first_file_witness :
    ∃ m m0,
      (buildCatalog [("a.prom", some "m 20"), ("b.prom", some "m 10")]).bind
        (fun cat => alookup cat "m") = some m ∧
      firstDef [("a.prom", some "m 20"), ("b.prom", some "m 10")] "m" = some m0 ∧
      m.min_value = m0.min_value ∧ m.max_value = m0.max_value ∧
      m.mean_value = m0.mean_value ∧ m.std_dev_sq = m0.std_dev_sq ∧
      m.samples = samplesFor [("a.prom", some "m 20"), ("b.prom", some "m 10")] "m" ∧
      StatsOf m0 := by
  obtain ⟨m0, hf, h1, h2, h3, h4, h5, h6⟩ :=
    merged_stats_from_first_file [("a.prom", some "m 20"), ("b.prom", some "m 10")]
      _ "m" _ rfl rfl
  exact ⟨_, m0, rfl, hf, h1, h2, h3, h4, h5, h6⟩

/-- **C8 (counterexample).**  `a.prom` declares `# TYPE m counter`,
`b.prom` (processed later) declares `# TYPE m gauge`: the merged type is
`"counter"` — the *first* file's metadata wins, not the last-processed
one's as the claim states. -/
theorem merged_metadata_first_wins :
    ((buildCatalog [("a.prom", some "# TYPE m counter"),
        ("b.prom", some "# TYPE m gauge\nm 1")]).bind
      (fun cat => alookup cat "m")).map (fun m => m.metric_type)
      = some "counter" ∧
    ¬ ((some "counter" : Option String) = some "gauge") := by
  refine ⟨?_, ?_⟩ <;> decide

/-- Witness for the amended C8 at a concrete input. -/
theorem merged_metadata_from_first_file_witness :
    ∃ m m0,
      (buildCatalog [("a.prom", some "# TYPE m counter"),
          ("b.prom", some "# TYPE m gauge\nm 1")]).bind
        (fun cat => alookup cat "m") = some m ∧
      firstDef [("a.prom", some "# TYPE m counter"),
          ("b.prom", some "# TYPE m gauge\nm 1")] "m" = some m0 ∧
      m.help_text = m0.help_text ∧ m.metric_type = m0.metric_type ∧
      m.samples = samplesFor [("a.prom", some "# TYPE m counter"),
          ("b.prom", some "# TYPE m gauge\nm 1")] "m" := by
  obtain ⟨m0, hf, h1, h2, h3⟩ :=
    merged_metadata_from_first_file [("a.prom", some "# TYPE m counter"),
        ("b.prom", some "# TYPE m gauge\nm 1")] _ "m" _ rfl rfl
  exact ⟨_, m0, rfl, hf, h1, h2, h3⟩

/-- **C9 (counterexample).**  A single refresh of a file containing only
`# TYPE m gauge` yields a catalog metric `m` with zero samples, and the
very same `generate_metrics` call emits a `# TYPE` line for it (with no
value line ever following) — the claim says no output line at all is
produced for such a metric. -/
theorem zero_sample_metric_still_gets_metadata_line :
    (generate_metrics ⟨[], [], 0⟩ [("f.prom", some "# TYPE m gauge")]
      ⟨fun _ => 1/2, fun _ => 0⟩ 100 0).1 = [OutLine.type "m" "gauge"] ∧
    (alookup (scan_directory ⟨[], [], 0⟩ [("f.prom", some "# TYPE m gauge")]
      ⟨fun _ => 1/2, fun _ => 0⟩ 100 0).1.metrics "m").map
      (fun m => m.samples) = some [] := by
  refine ⟨?_, ?_⟩ <;> decide

/-- Witness for the amended C9 at a concrete input. -/
theorem zero_sample_metric_emits_metadata_only_witness :
    (∀ labels w, OutLine.sample "m" labels w ∉ (generate_metrics
        ⟨[("m", ⟨"m", "gauge", "h", [], none, none, none, none, false⟩)], [], 100⟩
        [] ⟨fun _ => 1/2, fun _ => 0⟩ 100 0).1) ∧
    (("h" : String) ≠ "" → OutLine.help "m" "h" ∈ (generate_metrics
        ⟨[("m", ⟨"m", "gauge", "h", [], none, none, none, none, false⟩)], [], 100⟩
        [] ⟨fun _ => 1/2, fun _ => 0⟩ 100 0).1) ∧
    (("gauge" : String) ≠ "" → OutLine.type "m" "gauge" ∈ (generate_metrics
        ⟨[("m", ⟨"m", "gauge", "h", [], none, none, none, none, false⟩)], [], 100⟩
        [] ⟨fun _ => 1/2, fun _ => 0⟩ 100 0).1) :=
  zero_sample_metric_emits_metadata_only
    ⟨[("m", ⟨"m", "gauge", "h", [], none, none, none, none, false⟩)], [], 100⟩
    [] ⟨fun _ => 1/2, fun _ => 0⟩ 100 0 "m"
    ⟨"m", "gauge", "h", [], none, none, none, none, false⟩
    (by decide) rfl (Or.inl rfl)

/-- Witness for C10 at a concrete input. -/
theorem constant_metric_emits_constant_witness :
    (post_init ⟨"k", "gauge", "", [⟨7, []⟩, ⟨7, []⟩], none, none, none, none,
      false⟩).min_value = some 7 ∧
    (post_init ⟨"k", "gauge", "", [⟨7, []⟩, ⟨7, []⟩], none, none, none, none,
      false⟩).max_value = some 7 ∧
    (post_init ⟨"k", "gauge", "", [⟨7, []⟩, ⟨7, []⟩], none, none, none, none,
      false⟩).mean_value = some 7 ∧
    (post_init ⟨"k", "gauge", "", [⟨7, []⟩, ⟨7, []⟩], none, none, none, none,
      false⟩).std_dev_sq = some 0 ∧
    ∀ labels w, OutLine.sample "k" labels w ∈ (generate_metrics
        ⟨[("k", post_init ⟨"k", "gauge", "", [⟨7, []⟩, ⟨7, []⟩], none, none,
          none, none, false⟩)], [], 100⟩
        [] ⟨fun _ => 1/2, fun _ => 0⟩ 100 0).1 →
      w = 7 :=
  constant_metric_emits_constant
    ⟨[("k", post_init ⟨"k", "gauge", "", [⟨7, []⟩, ⟨7, []⟩], none, none, none,
      none, false⟩)], [], 100⟩
    [] ⟨fun _ => 1/2, fun _ => 0⟩ 100 0 "k"
    ⟨"k", "gauge", "", [⟨7, []⟩, ⟨7, []⟩], none, none, none, none, false⟩ 7
    (by decide) (by decide) (by decide) (by decide) rfl

/-- **C7 (counterexample).**  The valid sample line `m{a="x,y"} 1` parses
to the label set `{a: "x,y"}`, but the serialisation path used for the
series (`_key_to_labels` of `_labels_to_key`) writes out `{a: "x"}` — the
comma inside the label value corrupts the round trip, so the written label
set does not equal the parsed one as an unordered mapping. -/
theorem label_value_with_comma_breaks_roundtrip :
    parseSampleLine "m\x7ba=\"x,y\"\x7d 1".data = some ("m", [("a", "x,y")], 1) ∧
    key_to_labels (labels_to_key [("a", "x,y")]) = [("a", "x")] ∧
    ¬ (key_to_labels (labels_to_key [("a", "x,y")])).Perm [("a", "x,y")] := by
  refine ⟨?_, ?_, ?_⟩ <;> decide

/-- Witness for the amended C7 at a concrete input. -/
theorem parsed_labels_roundtrip_witness :
    (key_to_labels (labels_to_key [("a", "x"), ("b", "y")])).Perm
      [("a", "x"), ("b", "y")] :=
  parsed_labels_roundtrip "m\x7ba=\"x\",b=\"y\"\x7d 2".data "m"
    [("a", "x"), ("b", "y")] 2 (by decide) (by decide)

end ConcreteScanFacts

end Promock
